import Mathlib

/-! goldmark-wikilink: the inline wiki link parser and its default resolver.

A shallow embedding of `wikilink.go` and `ast/wikilink.go`.

* A Go `[]byte` and a Go `string` are both a `List Byte`, a byte being a `Fin 256`.
* Go `int` positions (`openPos`, `closePos`, `aliasPos`, with the sentinel `-1`) are `Int`.
* An indexing or slicing expression that Go would answer with a runtime panic yields `none`;
  every function that indexes or slices therefore returns an `Option`.
* The two things `Parse` can change, the position of the reader and the resolver being called,
  are passed explicitly as a `State`.
-/

namespace Wikilink

/-! ## Bytes, indexing and slicing -/

/-- A Go `byte`. -/
abbrev Byte := Fin 256

/-- The UTF-8 bytes of a string literal, as `[]byte("...")` in Go. -/
def bytes (s : String) : List Byte :=
  s.toUTF8.data.toList.map (fun b => b.val)

/-- Go `line[i]` for an `int` index: `none` stands for the out-of-range panic. -/
def index (line : List Byte) (i : Int) : Option Byte :=
  if 0 ≤ i then line.get? i.toNat else none

/-- Go `line[lo:hi]`: `none` stands for the out-of-range panic. The upper bound is checked
against the length; Go checks it against the capacity, which is at least the length. -/
def slice (line : List Byte) (lo hi : Int) : Option (List Byte) :=
  if 0 ≤ lo ∧ lo ≤ hi ∧ hi ≤ (line.length : Int) then
    some ((line.take hi.toNat).drop lo.toNat)
  else none

/-! ## Constants (`wikilink.go`, lines 17-22) -/

def delimiterCount : Int := 2
def openDelimiter : Byte := 91
def closeDelimiter : Byte := 93
def defaultAliasDelimiter : Byte := 58

/-! ## Data model -/

/-- The type `ResolveDestinationFunc`: raw destination to (destination, exists). -/
abbrev ResolveDestinationFunc := List Byte → List Byte × Bool

/-- The node `ast.WikiLink`, without the embedded `gast.BaseInline`. -/
structure WikiLink where
  Alias : List Byte
  RawDestination : List Byte
  Destination : List Byte
  Exists : Bool
deriving DecidableEq

/-- The struct `wikiLinkParser`. -/
structure wikiLinkParser where
  aliasDelimiter : Byte
  resolveDestinationFunc : ResolveDestinationFunc

/-- The part of goldmark's `text.Reader` that `Parse` uses: the bytes of the current line and
the offset of the first byte not yet consumed. -/
structure Reader where
  source : List Byte
  pos : Nat
deriving DecidableEq

/-- The method `PeekLine`: the unconsumed remainder of the current line. -/
def Reader.PeekLine (block : Reader) : List Byte :=
  block.source.drop block.pos

/-- The method `Advance`: move the position `n` bytes forward. -/
def Reader.Advance (block : Reader) (n : Int) : Reader :=
  { block with pos := block.pos + n.toNat }

/-- What a call of `Parse` can change: the reader, and the record of the arguments the
resolver has been invoked with (most recent last). -/
structure State where
  block : Reader
  resolverCalls : List (List Byte)
deriving DecidableEq

/-! ## The parser (`wikilink.go`, lines 42-90) -/

/-- The method `Trigger`. -/
def Trigger (_p : wikiLinkParser) : List Byte :=
  [openDelimiter]

/-- The test `line[i] == closeDelimiter && line[i+1] == closeDelimiter`; the second byte is
read only when the first one is the closing marker. -/
def isClosePair (line : List Byte) (i : Int) : Option Bool :=
  (index line i).bind fun c =>
    if c = closeDelimiter then
      (index line (i + 1)).bind fun c' => some (decide (c' = closeDelimiter))
    else some false

/-- The loop `for i := openPos; i < len(line)-1; i++` of `Parse`, entered with the current
`i` and `aliasPos`; the result is `(closePos, aliasPos)` at loop exit. The first argument
bounds the number of iterations; `none` is a panic or an exhausted bound. -/
def scanLoop (line : List Byte) (aliasDelimiter : Byte) : Nat → Int → Int → Option (Int × Int)
  | 0, _, _ => none
  | fuel + 1, i, aliasPos =>
    if i < (line.length : Int) - 1 then
      (isClosePair line i).bind fun closing =>
        if closing then some (i, aliasPos)
        else
          (index line i).bind fun c =>
            scanLoop line aliasDelimiter fuel (i + 1) (if c = aliasDelimiter then i else aliasPos)
    else some (-1, aliasPos)

/-- The call `p.resolveDestinationFunc(wl.RawDestination)` followed by the two assignments to
`wl.Destination` and `wl.Exists`; the call is recorded in the state. -/
def resolve (p : wikiLinkParser) (wl : WikiLink) (s : State) : WikiLink × State :=
  let out := p.resolveDestinationFunc wl.RawDestination
  ({ wl with Destination := out.1, Exists := out.2 },
   { s with resolverCalls := s.resolverCalls ++ [wl.RawDestination] })

/-- The method `Parse`. The result is `none` for a panic, otherwise the returned node (`none`
for `nil`) and the state after the call. -/
def Parse (p : wikiLinkParser) (s : State) : Option (Option WikiLink × State) :=
  let line := s.block.PeekLine
  if line.length ≤ 4 then some (none, s)
  else
    (index line 1).bind fun b1 =>
      if b1 ≠ openDelimiter then some (none, s)
      else
        let openPos : Int := delimiterCount
        (scanLoop line p.aliasDelimiter line.length openPos (-1)).bind fun (closePos, aliasPos) =>
          if openPos = closePos ∨ closePos = -1 then some (none, s)
          else
            let wl : WikiLink := ⟨[], [], [], false⟩
            let split : Option WikiLink :=
              if aliasPos = -1 ∨ openPos = aliasPos ∨ aliasPos + 1 = closePos then
                (slice line openPos closePos).bind fun raw =>
                  some { wl with RawDestination := raw, Alias := raw }
              else
                (slice line openPos aliasPos).bind fun raw =>
                  (slice line (aliasPos + 1) closePos).bind fun display =>
                    some { wl with RawDestination := raw, Alias := display }
            split.bind fun wl =>
              let (wl, s) := resolve p wl s
              some (some wl, { s with block := s.block.Advance (closePos + delimiterCount) })

/-- A state whose reader stands at the start of `line`, with no resolver call recorded. -/
def atLine (line : List Byte) : State :=
  ⟨⟨line, 0⟩, []⟩

/-! ## The default resolver (`wikilink.go`, lines 28-35)

`defaultResolveDestinationFunc` is a chain of four functions of Go's standard library. They are
embedded from the library's sources: `strings.TrimSpace`, `strings.ToLower`,
`strings.ReplaceAll` for one-byte patterns, and `url.PathEscape`. `TrimSpace` and `ToLower`
leave their byte loops for Unicode tables as soon as they meet a byte `≥ 0x80`; those
table-driven operations are a parameter, `UnicodeOps`. -/

/-- Go's `utf8.RuneSelf`: bytes below it are the one-byte (ASCII) runes. -/
def RuneSelf : Byte := 0x80

/-- Go's table `asciiSpace`: tab, line feed, vertical tab, form feed, carriage return, space. -/
def asciiSpace (c : Byte) : Bool :=
  c = 9 || c = 10 || c = 11 || c = 12 || c = 13 || c = 32

/-- The operations of Go's `strings` package that `TrimSpace` and `ToLower` hand input with
a non-ASCII byte to. -/
structure UnicodeOps where
  /-- Go `strings.TrimFunc(s, unicode.IsSpace)`. -/
  trimFuncIsSpace : List Byte → List Byte
  /-- Go `strings.TrimRightFunc(s, unicode.IsSpace)`. -/
  trimRightFuncIsSpace : List Byte → List Byte
  /-- Go `strings.Map(unicode.ToLower, s)`. -/
  mapToLower : List Byte → List Byte

/-- The second loop of `strings.TrimSpace`, which walks `s[start:stop]` from its end; the
argument is `s[start:stop]` reversed. -/
def trimSpaceStop (u : UnicodeOps) : List Byte → List Byte
  | [] => []
  | c :: rest =>
    if RuneSelf ≤ c then u.trimRightFuncIsSpace (c :: rest).reverse
    else if asciiSpace c then trimSpaceStop u rest
    else (c :: rest).reverse

/-- The first loop of `strings.TrimSpace`, which walks `s[start:]` from its start. -/
def trimSpaceStart (u : UnicodeOps) : List Byte → List Byte
  | [] => trimSpaceStop u []
  | c :: rest =>
    if RuneSelf ≤ c then u.trimFuncIsSpace (c :: rest)
    else if asciiSpace c then trimSpaceStart u rest
    else trimSpaceStop u (c :: rest).reverse

/-- Go `strings.TrimSpace`. -/
def TrimSpace (u : UnicodeOps) (s : List Byte) : List Byte :=
  trimSpaceStart u s

/-- The byte step of the ASCII branch of `strings.ToLower`: `c += 'a' - 'A'` for `'A'..'Z'`. -/
def asciiToLower (c : Byte) : Byte :=
  if 65 ≤ c ∧ c ≤ 90 then c + 32 else c

/-- Go `strings.ToLower`. -/
def ToLower (u : UnicodeOps) (s : List Byte) : List Byte :=
  if s.all (fun c => decide (c < RuneSelf)) then s.map asciiToLower else u.mapToLower s

/-- Go `strings.ReplaceAll(s, old, new)` for patterns `old` and `new` of one ASCII byte each. -/
def ReplaceAll (s : List Byte) (old new : Byte) : List Byte :=
  s.map fun c => if c = old then new else c

/-- Go's `upperhex`. -/
def upperhex : List Byte := bytes "0123456789ABCDEF"

/-- Go `url.shouldEscape(c, encodePathSegment)`. -/
def shouldEscape (c : Byte) : Bool :=
  if (97 ≤ c ∧ c ≤ 122) ∨ (65 ≤ c ∧ c ≤ 90) ∨ (48 ≤ c ∧ c ≤ 57) then false
  else if c ∈ bytes "-_.~" then false
  else if c ∈ bytes "$&+,/:;=?@" then decide (c ∈ bytes "/;,?")
  else true

/-- Go `url.PathEscape`, that is `escape(s, encodePathSegment)`: a byte to escape becomes
`%` and its two upper-case hexadecimal digits. -/
def PathEscape (s : List Byte) : List Byte :=
  s.flatMap fun c =>
    if shouldEscape c then [37, upperhex.getD (c.val / 16) 0, upperhex.getD (c.val % 16) 0]
    else [c]

/-- The function `defaultResolveDestinationFunc`. -/
def defaultResolveDestinationFunc (u : UnicodeOps) : ResolveDestinationFunc := fun rawDest =>
  let dest := TrimSpace u rawDest
  let dest := ToLower u dest
  let dest := ReplaceAll dest 32 45
  let dest := PathEscape dest
  (dest, true)

/-- Stand-in Unicode operations for evaluating the resolver on ASCII input, which never
reaches them. -/
def asciiOnly : UnicodeOps :=
  ⟨id, id, id⟩

/-- The parser that `Extend` registers for the default options. -/
def defaultParser (u : UnicodeOps) : wikiLinkParser :=
  ⟨defaultAliasDelimiter, defaultResolveDestinationFunc u⟩

/-- The parser of `TestWikiLinkWithOptions`: delimiter `|`, and a resolver that answers
`"path"` and whether the raw destination is `"Exists"`. -/
def optionsParser : wikiLinkParser :=
  ⟨124, fun rawDest => (bytes "path", decide (rawDest = bytes "Exists"))⟩

/-! ## Vocabulary of the properties -/

/-- Two consecutive closing markers start at index `i` of `line`. -/
def closesAt (line : List Byte) (i : Nat) : Prop :=
  line.get? i = some closeDelimiter ∧ line.get? (i + 1) = some closeDelimiter

instance (line : List Byte) (i : Nat) : Decidable (closesAt line i) :=
  inferInstanceAs (Decidable (_ ∧ _))

/-- The index `c` is the least one from 2 on at which two consecutive closing markers start. -/
def FirstClose (line : List Byte) (c : Nat) : Prop :=
  2 ≤ c ∧ closesAt line c ∧ ∀ j < c, 2 ≤ j → ¬ closesAt line j

instance (line : List Byte) (c : Nat) : Decidable (FirstClose line c) :=
  inferInstanceAs (Decidable (_ ∧ _ ∧ _))

/-- No byte of `line[2:c]` is the delimiter `d`. -/
def NoDelim (line : List Byte) (d : Byte) (c : Nat) : Prop :=
  ∀ j < c, 2 ≤ j → line.get? j ≠ some d

instance (line : List Byte) (d : Byte) (c : Nat) : Decidable (NoDelim line d c) :=
  inferInstanceAs (Decidable (∀ j < c, _))

/-- The index `q` is the last one inside `line[2:c]` that holds the delimiter `d`. -/
def LastDelim (line : List Byte) (d : Byte) (c q : Nat) : Prop :=
  2 ≤ q ∧ q < c ∧ line.get? q = some d ∧ ∀ j < c, q < j → line.get? j ≠ some d

instance (line : List Byte) (d : Byte) (c q : Nat) : Decidable (LastDelim line d c q) :=
  inferInstanceAs (Decidable (_ ∧ _ ∧ _ ∧ _))

/-- The Go slice `line[lo:hi]` for indices known to be in range. -/
def sub (line : List Byte) (lo hi : Nat) : List Byte :=
  (line.take hi).drop lo

/-- What the loop entered at index `i` with alias position `a` has computed at its exit. -/
def ScanPost (line : List Byte) (d : Byte) (i : Nat) (a cp ap : Int) : Prop :=
  (cp = -1 ∧ ∀ j, i ≤ j → ¬ closesAt line j) ∨
  ∃ c : Nat, cp = (c : Int) ∧ i ≤ c ∧ closesAt line c ∧ (∀ j < c, i ≤ j → ¬ closesAt line j) ∧
    ((ap = a ∧ ∀ j < c, i ≤ j → line.get? j ≠ some d) ∨
     ∃ q : Nat, ap = (q : Int) ∧ i ≤ q ∧ q < c ∧ line.get? q = some d ∧
       ∀ j < c, q < j → line.get? j ≠ some d)

/-! ## The outcomes of `Parse` -/

/-- The node returned when the split is suppressed: the whole content `line[2:c]` is both raw
destination and alias. -/
def wholeNode (p : wikiLinkParser) (line : List Byte) (c : Nat) : WikiLink :=
  { Alias := sub line 2 c
    RawDestination := sub line 2 c
    Destination := (p.resolveDestinationFunc (sub line 2 c)).1
    Exists := (p.resolveDestinationFunc (sub line 2 c)).2 }

/-- The node returned when the content is split at index `q`. -/
def splitNode (p : wikiLinkParser) (line : List Byte) (c q : Nat) : WikiLink :=
  { Alias := sub line (q + 1) c
    RawDestination := sub line 2 q
    Destination := (p.resolveDestinationFunc (sub line 2 q)).1
    Exists := (p.resolveDestinationFunc (sub line 2 q)).2 }

/-- The state after a match closing at index `c` whose raw destination is `raw`. -/
def matched (s : State) (raw : List Byte) (c : Nat) : State :=
  { block := { source := s.block.source, pos := s.block.pos + (c + 2) }
    resolverCalls := s.resolverCalls ++ [raw] }

/-- The six ways a call of `Parse` on state `s` can go, each with its result. -/
inductive ParseCase (p : wikiLinkParser) (s : State) : Option (Option WikiLink × State) → Prop
  | short : s.block.PeekLine.length ≤ 4 → ParseCase p s (some (none, s))
  | noOpen : 4 < s.block.PeekLine.length → s.block.PeekLine.get? 1 ≠ some openDelimiter →
      ParseCase p s (some (none, s))
  | noClose : 4 < s.block.PeekLine.length → s.block.PeekLine.get? 1 = some openDelimiter →
      (∀ j, 2 ≤ j → ¬ closesAt s.block.PeekLine j) → ParseCase p s (some (none, s))
  | empty : 4 < s.block.PeekLine.length → s.block.PeekLine.get? 1 = some openDelimiter →
      FirstClose s.block.PeekLine 2 → ParseCase p s (some (none, s))
  | whole (c : Nat) : 4 < s.block.PeekLine.length →
      s.block.PeekLine.get? 1 = some openDelimiter → FirstClose s.block.PeekLine c → 2 < c →
      (NoDelim s.block.PeekLine p.aliasDelimiter c ∨
        ∃ q, LastDelim s.block.PeekLine p.aliasDelimiter c q ∧ (q = 2 ∨ q + 1 = c)) →
      ParseCase p s (some (some (wholeNode p s.block.PeekLine c),
        matched s (sub s.block.PeekLine 2 c) c))
  | split (c q : Nat) : 4 < s.block.PeekLine.length →
      s.block.PeekLine.get? 1 = some openDelimiter → FirstClose s.block.PeekLine c →
      LastDelim s.block.PeekLine p.aliasDelimiter c q → 2 < q → q + 1 < c →
      ParseCase p s (some (some (splitNode p s.block.PeekLine c q),
        matched s (sub s.block.PeekLine 2 q) c))

/-- The split is suppressed for the content `line[2:c]`: no delimiter in it, or the last one
at its first or at its last byte. -/
def Suppressed (line : List Byte) (d : Byte) (c : Nat) : Prop :=
  NoDelim line d c ∨ ∃ q, LastDelim line d c q ∧ (q = 2 ∨ q + 1 = c)

/-- The condition under which a line holds no wiki link at its start: fewer than 5 bytes, or
byte 1 is not the opening marker, or no index from 2 on starts two consecutive closing
markers, or the least such index is 2. -/
def NoMatchCond (line : List Byte) : Prop :=
  line.length < 5 ∨ line.get? 1 ≠ some openDelimiter ∨
  (¬ ∃ i, 2 ≤ i ∧ i + 1 < line.length ∧ closesAt line i) ∨
  ∃ i, FirstClose line i ∧ i = 2

/-- A byte of the alphabet on which the default resolver escapes nothing: an ASCII letter or
digit, a space, or one of `- _ . ~ $ & + = : @`. -/
def plainByte (c : Byte) : Bool :=
  decide (97 ≤ c ∧ c ≤ 122) || decide (65 ≤ c ∧ c ≤ 90) || decide (48 ≤ c ∧ c ≤ 57) ||
    decide (c = 32) || decide (c ∈ bytes "-_.~$&+=:@")

/-- The slug as the specification words it: leading and trailing spaces removed, every
letter lowercased, every remaining space replaced with `-`. -/
def slugSpec (raw : List Byte) : List Byte :=
  let trimmed := ((raw.dropWhile (fun c => decide (c = 32))).reverse.dropWhile
    (fun c => decide (c = 32))).reverse
  let lowered := trimmed.map fun c => if 65 ≤ c ∧ c ≤ 90 then c + 32 else c
  lowered.map fun c => if c = 32 then 45 else c

/-! ## The default renderer and the options (`wikilink.go`, lines 92-191) -/

/-- The type `RenderFunc`: node to markup. `none` stands for a call that does not return a
string. -/
abbrev RenderFunc := WikiLink → Option (List Byte)

/-- Go `fmt.Sprintf` on the fragment of format strings used here: the only verbs are `%s`,
which prints a string or byte-slice operand as it is, and `%%`; there is one operand for each
`%s`. The result is `none` for a format or an operand list outside this fragment. -/
def Sprintf : List Byte → List (List Byte) → Option (List Byte)
  | [], args => if args = [] then some [] else none
  | [c], args => if c = 37 then none else if args = [] then some [c] else none
  | c :: v :: rest, args =>
    if c = 37 then
      if v = 115 then
        match args with
        | [] => none
        | a :: args => (Sprintf rest args).map fun out => a ++ out
      else if v = 37 then (Sprintf rest args).map fun out => 37 :: out
      else none
    else (Sprintf (v :: rest) args).map fun out => c :: out

/-- The function `defaultRenderFunc`. -/
def defaultRenderFunc : RenderFunc := fun wl =>
  Sprintf (bytes "<a href=\"%s\">%s</a>") [wl.Destination, wl.Alias]

/-- The struct `wikiLinkExtension`. -/
structure wikiLinkExtension where
  aliasDelimiter : Byte
  resolveDestinationFunc : ResolveDestinationFunc
  renderFunc : RenderFunc

/-- The function `newWithDefaultOptions`. -/
def newWithDefaultOptions (u : UnicodeOps) : wikiLinkExtension :=
  { resolveDestinationFunc := defaultResolveDestinationFunc u
    aliasDelimiter := defaultAliasDelimiter
    renderFunc := defaultRenderFunc }

/-- The type `Option` of `wikilink.go`, a function that updates the extension it is given;
the update in place through the pointer is the returned extension. -/
abbrev ExtOption := wikiLinkExtension → wikiLinkExtension

/-- The function `New`: the loop `for _, opt := range opts { opt(ext) }` over the default
options. -/
def New (u : UnicodeOps) (opts : List ExtOption) : wikiLinkExtension :=
  opts.foldl (fun ext opt => opt ext) (newWithDefaultOptions u)

/-- The function `WithAliasDelimiter`. -/
def WithAliasDelimiter (aliasDelimiter : Byte) : ExtOption := fun ext =>
  { ext with aliasDelimiter := aliasDelimiter }

/-- The function `WithResolveDestinationFunc`. -/
def WithResolveDestinationFunc (resolveDestinationFunc : ResolveDestinationFunc) : ExtOption :=
  fun ext => { ext with resolveDestinationFunc := resolveDestinationFunc }

/-- The function `WithRenderFunc`. -/
def WithRenderFunc (renderFunc : RenderFunc) : ExtOption := fun ext =>
  { ext with renderFunc := renderFunc }

/-- The variant of `Parse` that the redundancy of the length guard is stated against: the
body of `Parse` with the test `len(line) <= 4` replaced by `len(line) < 2`, which is what the
read of `line[1]` needs. -/
def ParseGuardTwo (p : wikiLinkParser) (s : State) : Option (Option WikiLink × State) :=
  let line := s.block.PeekLine
  if line.length < 2 then some (none, s)
  else
    (index line 1).bind fun b1 =>
      if b1 ≠ openDelimiter then some (none, s)
      else
        let openPos : Int := delimiterCount
        (scanLoop line p.aliasDelimiter line.length openPos (-1)).bind fun (closePos, aliasPos) =>
          if openPos = closePos ∨ closePos = -1 then some (none, s)
          else
            let wl : WikiLink := ⟨[], [], [], false⟩
            let split : Option WikiLink :=
              if aliasPos = -1 ∨ openPos = aliasPos ∨ aliasPos + 1 = closePos then
                (slice line openPos closePos).bind fun raw =>
                  some { wl with RawDestination := raw, Alias := raw }
              else
                (slice line openPos aliasPos).bind fun raw =>
                  (slice line (aliasPos + 1) closePos).bind fun display =>
                    some { wl with RawDestination := raw, Alias := display }
            split.bind fun wl =>
              let (wl, s) := resolve p wl s
              some (some wl, { s with block := s.block.Advance (closePos + delimiterCount) })

/-! ## Vocabulary of the properties of the resolver's output -/

/-- A byte that may stand unescaped in a URL path segment: an ASCII letter, an ASCII digit or
one of `- _ . ~ $ & + = : @`. -/
def pathSafeByte (c : Byte) : Bool :=
  decide (97 ≤ c ∧ c ≤ 122) || decide (65 ≤ c ∧ c ≤ 90) || decide (48 ≤ c ∧ c ≤ 57) ||
    decide (c ∈ bytes "-_.~$&+=:@")

/-- A hexadecimal digit, `0`-`9` or `A`-`F`. -/
def hexDigit (c : Byte) : Bool :=
  decide (48 ≤ c ∧ c ≤ 57) || decide (65 ≤ c ∧ c ≤ 70)

/-- A unit of an escaped path segment: one path-safe byte, or `%` and two hexadecimal
digits. -/
def safeToken : List Byte → Bool
  | [c] => pathSafeByte c
  | [c, h1, h2] => decide (c = 37) && hexDigit h1 && hexDigit h2
  | _ => false

/-- The bytes space, `"`, `<`, `>`, `/`, `?` and `#`. -/
def unsafeBytes : List Byte :=
  [32, 34, 60, 62, 47, 63, 35]

/-! ## Indexing and slicing lemmas -/

theorem index_natCast (line : List Byte) (n : Nat) : index line (n : Int) = line.get? n := by
  simp [index]

theorem index_natCast_succ (line : List Byte) (n : Nat) :
    index line ((n : Int) + 1) = line.get? (n + 1) := by
  have h : ((n : Int) + 1) = ((n + 1 : Nat) : Int) := by push_cast; rfl
  rw [h, index_natCast]

theorem slice_natCast (line : List Byte) (lo hi : Nat) (h1 : lo ≤ hi) (h2 : hi ≤ line.length) :
    slice line (lo : Int) (hi : Int) = some (sub line lo hi) := by
  unfold slice sub
  have hc : (0 : Int) ≤ (lo : Int) ∧ (lo : Int) ≤ (hi : Int) ∧ (hi : Int) ≤ (line.length : Int) := by
    omega
  simp [hc]

theorem closesAt_lt (line : List Byte) (j : Nat) (h : closesAt line j) : j + 1 < line.length := by
  rcases h with ⟨_, h2⟩
  by_contra hlt
  rw [List.get?_len_le (by omega)] at h2
  exact absurd h2 (by simp)

theorem isClosePair_natCast (line : List Byte) (i : Nat) (h : i + 1 < line.length) :
    isClosePair line (i : Int) = some (decide (closesAt line i)) := by
  unfold isClosePair closesAt
  have hi : i < line.length := by omega
  obtain ⟨b, hb⟩ : ∃ b, line.get? i = some b := ⟨_, List.get?_eq_get hi⟩
  obtain ⟨b', hb'⟩ : ∃ b, line.get? (i + 1) = some b := ⟨_, List.get?_eq_get h⟩
  simp only [index_natCast, index_natCast_succ, hb, hb', Option.some_bind, Option.some.injEq]
  by_cases hc : b = closeDelimiter <;> simp [hc]

/-! ## The scan loop -/

theorem scanLoop_spec (line : List Byte) (d : Byte) :
    ∀ (fuel i : Nat) (a : Int), 0 < fuel → line.length ≤ fuel + i →
      ∃ cp ap, scanLoop line d fuel (i : Int) a = some (cp, ap) ∧ ScanPost line d i a cp ap := by
  intro fuel
  induction fuel with
  | zero => intro i a h; omega
  | succ fuel ih =>
    intro i a _ hlen
    by_cases hlt : i + 1 < line.length
    · have hcond : (i : Int) < (line.length : Int) - 1 := by omega
      have hi : i < line.length := by omega
      by_cases hc : closesAt line i
      · refine ⟨i, a, ?_, ?_⟩
        · simp [scanLoop, hcond, isClosePair_natCast line i hlt, hc]
        · refine Or.inr ⟨i, rfl, le_refl _, hc, ?_, Or.inl ⟨rfl, ?_⟩⟩
          · intro j hj hij; omega
          · intro j hj hij; omega
      · obtain ⟨b, hb⟩ : ∃ b, line.get? i = some b := ⟨_, List.get?_eq_get hi⟩
        obtain ⟨cp, ap, hrun, hpost⟩ :=
          ih (i + 1) (if b = d then (i : Int) else a) (by omega) (by omega)
        refine ⟨cp, ap, ?_, ?_⟩
        · have hcast : ((i : Int) + 1) = ((i + 1 : Nat) : Int) := by push_cast; rfl
          simp only [scanLoop, hcond, if_true, isClosePair_natCast line i hlt, hc,
            Option.some_bind, decide_False, Bool.false_eq_true, if_false, index_natCast,
            hb, hcast]
          exact hrun
        · have hstep : ∀ j, i ≤ j → j ≠ i → i + 1 ≤ j := by intro j h1 h2; omega
          rcases hpost with ⟨hcp, hnone⟩ | ⟨c, hcp, hic, hcl, hfirst, halias⟩
          · refine Or.inl ⟨hcp, ?_⟩
            intro j hij
            by_cases hji : j = i
            · subst hji; exact hc
            · exact hnone j (hstep j hij hji)
          · refine Or.inr ⟨c, hcp, by omega, hcl, ?_, ?_⟩
            · intro j hj hij
              by_cases hji : j = i
              · subst hji; exact hc
              · exact hfirst j hj (hstep j hij hji)
            · rcases halias with ⟨hap, hno⟩ | ⟨q, hap, hiq, hqc, hq, hlast⟩
              · by_cases hd : b = d
                · rw [if_pos hd] at hap
                  refine Or.inr ⟨i, hap, le_refl _, by omega, ?_, ?_⟩
                  · rw [hb, hd]
                  · intro j hj hij; exact hno j hj (by omega)
                · rw [if_neg hd] at hap
                  refine Or.inl ⟨hap, ?_⟩
                  intro j hj hij
                  by_cases hji : j = i
                  · subst hji
                    rw [hb]
                    intro h
                    exact hd (Option.some.inj h)
                  · exact hno j hj (hstep j hij hji)
              · exact Or.inr ⟨q, hap, by omega, hqc, hq, hlast⟩
    · refine ⟨-1, a, ?_, Or.inl ⟨rfl, ?_⟩⟩
      · have hcond : ¬ (i : Int) < (line.length : Int) - 1 := by omega
        simp [scanLoop, hcond]
      · intro j hij hcl
        have := closesAt_lt line j hcl
        omega

/-! ## The outcomes of `Parse`, proved -/

/-- The body of `Parse` after the scan loop, given the loop's result. -/
theorem Parse_after_scan (p : wikiLinkParser) (s : State) (cp ap : Int)
    (hlong : ¬ s.block.PeekLine.length ≤ 4)
    (hidx : index s.block.PeekLine 1 = some openDelimiter)
    (hrun : scanLoop s.block.PeekLine p.aliasDelimiter s.block.PeekLine.length delimiterCount (-1)
      = some (cp, ap)) :
    Parse p s =
      if delimiterCount = cp ∨ cp = -1 then some (none, s)
      else
        (if ap = -1 ∨ delimiterCount = ap ∨ ap + 1 = cp then
          (slice s.block.PeekLine delimiterCount cp).bind fun raw =>
            some { Alias := raw, RawDestination := raw, Destination := [], Exists := false }
        else
          (slice s.block.PeekLine delimiterCount ap).bind fun raw =>
            (slice s.block.PeekLine (ap + 1) cp).bind fun display =>
              some { Alias := display, RawDestination := raw, Destination := [],
                     Exists := false }).bind fun wl =>
          some (some (resolve p wl s).1,
            { (resolve p wl s).2 with
              block := (resolve p wl s).2.block.Advance (cp + delimiterCount) }) := by
  unfold Parse
  simp only [hlong, if_false, hidx, Option.some_bind, ne_eq, not_true_eq_false, hrun]

theorem Parse_case (p : wikiLinkParser) (s : State) : ParseCase p s (Parse p s) := by
  by_cases hshort : s.block.PeekLine.length ≤ 4
  · have : Parse p s = some (none, s) := by
      unfold Parse; simp only [hshort, if_true]
    rw [this]; exact ParseCase.short hshort
  have hlong : 4 < s.block.PeekLine.length := by omega
  obtain ⟨b1, hb1⟩ : ∃ b, s.block.PeekLine.get? 1 = some b := ⟨_, List.get?_eq_get (by omega)⟩
  have hidx : index s.block.PeekLine 1 = some b1 := by
    rw [← hb1]; exact index_natCast s.block.PeekLine 1
  by_cases hopen : b1 = openDelimiter
  swap
  · have : Parse p s = some (none, s) := by
      unfold Parse
      simp only [hshort, if_false, hidx, Option.some_bind, ne_eq, hopen, not_false_eq_true,
        if_true]
    rw [this]
    refine ParseCase.noOpen hlong ?_
    rw [hb1]
    intro h; exact hopen (Option.some.inj h)
  subst hopen
  obtain ⟨cp, ap, hrun, hpost⟩ :=
    scanLoop_spec s.block.PeekLine p.aliasDelimiter s.block.PeekLine.length 2 (-1)
      (by omega) (by omega)
  rw [Parse_after_scan p s cp ap hshort hidx hrun]
  rcases hpost with ⟨hcp, hnone⟩ | ⟨c, hcp, hc2, hcl, hfirst, halias⟩
  · rw [if_pos (Or.inr hcp)]
    exact ParseCase.noClose hlong hb1 hnone
  have hfc : FirstClose s.block.PeekLine c := ⟨hc2, hcl, hfirst⟩
  have hclen := closesAt_lt s.block.PeekLine c hcl
  by_cases hc : c = 2
  · subst hc
    have hg : delimiterCount = cp ∨ cp = -1 := Or.inl hcp.symm
    rw [if_pos hg]
    exact ParseCase.empty hlong hb1 hfc
  have hgt : 2 < c := by omega
  have hguard : ¬ (delimiterCount = cp ∨ cp = -1) := by
    rw [hcp]; unfold delimiterCount; omega
  have hadv : cp + delimiterCount = ((c + 2 : Nat) : Int) := by
    rw [hcp]; unfold delimiterCount; push_cast; rfl
  have hwhole : slice s.block.PeekLine delimiterCount cp = some (sub s.block.PeekLine 2 c) := by
    rw [hcp]; exact slice_natCast s.block.PeekLine 2 c (by omega) (by omega)
  rw [if_neg hguard, hadv]
  have hwholeRes : (ap = -1 ∨ delimiterCount = ap ∨ ap + 1 = cp) →
      (NoDelim s.block.PeekLine p.aliasDelimiter c ∨
        ∃ q, LastDelim s.block.PeekLine p.aliasDelimiter c q ∧ (q = 2 ∨ q + 1 = c)) →
      ParseCase p s (((if ap = -1 ∨ delimiterCount = ap ∨ ap + 1 = cp then
          (slice s.block.PeekLine delimiterCount cp).bind fun raw =>
            some { Alias := raw, RawDestination := raw, Destination := [], Exists := false }
        else
          (slice s.block.PeekLine delimiterCount ap).bind fun raw =>
            (slice s.block.PeekLine (ap + 1) cp).bind fun display =>
              some { Alias := display, RawDestination := raw, Destination := [],
                     Exists := false }).bind fun wl =>
          some (some (resolve p wl s).1,
            { (resolve p wl s).2 with
              block := (resolve p wl s).2.block.Advance ((c + 2 : Nat) : Int) }))) := by
    intro hsup hwhy
    rw [if_pos hsup, hwhole]
    exact ParseCase.whole c hlong hb1 hfc hgt hwhy
  rcases halias with ⟨hap, hno⟩ | ⟨q, hap, hq2, hqc, hq, hlast⟩
  · exact hwholeRes (Or.inl hap) (Or.inl hno)
  have hld : LastDelim s.block.PeekLine p.aliasDelimiter c q := ⟨hq2, hqc, hq, hlast⟩
  by_cases hedge : q = 2 ∨ q + 1 = c
  · have hsup : ap = -1 ∨ delimiterCount = ap ∨ ap + 1 = cp := by
      rw [hap, hcp]; unfold delimiterCount
      rcases hedge with h | h
      · exact Or.inr (Or.inl (by omega))
      · exact Or.inr (Or.inr (by omega))
    exact hwholeRes hsup (Or.inr ⟨q, hld, hedge⟩)
  have hq3 : 2 < q := by omega
  have hqc1 : q + 1 < c := by omega
  have hnsup : ¬ (ap = -1 ∨ delimiterCount = ap ∨ ap + 1 = cp) := by
    rw [hap, hcp]; unfold delimiterCount; omega
  have hraw : slice s.block.PeekLine delimiterCount ap = some (sub s.block.PeekLine 2 q) := by
    rw [hap]; exact slice_natCast s.block.PeekLine 2 q (by omega) (by omega)
  have hali : slice s.block.PeekLine (ap + 1) cp = some (sub s.block.PeekLine (q + 1) c) := by
    rw [hap, hcp]
    have h : ((q : Int) + 1) = ((q + 1 : Nat) : Int) := by push_cast; rfl
    rw [h]; exact slice_natCast s.block.PeekLine (q + 1) c (by omega) (by omega)
  rw [if_neg hnsup, hraw, hali]
  exact ParseCase.split c q hlong hb1 hfc hld hq3 hqc1

/-! ## Uniqueness of the positions and inversion of `Parse` -/

theorem FirstClose_unique (line : List Byte) (c c' : Nat) (h : FirstClose line c)
    (h' : FirstClose line c') : c = c' := by
  rcases h with ⟨h2, hcl, hfirst⟩
  rcases h' with ⟨h2', hcl', hfirst'⟩
  rcases Nat.lt_trichotomy c c' with hlt | heq | hgt
  · exact absurd hcl (hfirst' c hlt h2)
  · exact heq
  · exact absurd hcl' (hfirst c' hgt h2')

theorem LastDelim_unique (line : List Byte) (d : Byte) (c q q' : Nat)
    (h : LastDelim line d c q) (h' : LastDelim line d c q') : q = q' := by
  rcases h with ⟨_, hqc, hq, hlast⟩
  rcases h' with ⟨_, hqc', hq', hlast'⟩
  rcases Nat.lt_trichotomy q q' with hlt | heq | hgt
  · exact absurd hq' (hlast q' hqc' hlt)
  · exact heq
  · exact absurd hq (hlast' q hqc hgt)

theorem NoDelim_not_LastDelim (line : List Byte) (d : Byte) (c q : Nat)
    (h : NoDelim line d c) (h' : LastDelim line d c q) : False := by
  rcases h' with ⟨hq2, hqc, hq, _⟩
  exact h q hqc hq2 hq

theorem Parse_match_inv (p : wikiLinkParser) (s s' : State) (wl : WikiLink)
    (hm : Parse p s = some (some wl, s')) :
    4 < s.block.PeekLine.length ∧ s.block.PeekLine.get? 1 = some openDelimiter ∧
    ∃ c, FirstClose s.block.PeekLine c ∧ 2 < c ∧ c + 1 < s.block.PeekLine.length ∧
      ((Suppressed s.block.PeekLine p.aliasDelimiter c ∧ wl = wholeNode p s.block.PeekLine c ∧
          s' = matched s (sub s.block.PeekLine 2 c) c) ∨
       ∃ q, LastDelim s.block.PeekLine p.aliasDelimiter c q ∧ 2 < q ∧ q + 1 < c ∧
          wl = splitNode p s.block.PeekLine c q ∧
          s' = matched s (sub s.block.PeekLine 2 q) c) := by
  have h := Parse_case p s
  generalize hres : Parse p s = res at h hm
  cases h with
  | short _ => simp at hm
  | noOpen _ _ => simp at hm
  | noClose _ _ _ => simp at hm
  | empty _ _ _ => simp at hm
  | whole c hlong hb1 hfc hgt hwhy =>
    simp only [Option.some.injEq, Prod.mk.injEq] at hm
    refine ⟨hlong, hb1, c, hfc, hgt, closesAt_lt _ c hfc.2.1, Or.inl ⟨hwhy, hm.1.symm, hm.2.symm⟩⟩
  | split c q hlong hb1 hfc hld hq3 hqc =>
    simp only [Option.some.injEq, Prod.mk.injEq] at hm
    exact ⟨hlong, hb1, c, hfc, by omega, closesAt_lt _ c hfc.2.1,
      Or.inr ⟨q, hld, hq3, hqc, hm.1.symm, hm.2.symm⟩⟩

theorem Parse_nomatch_inv (p : wikiLinkParser) (s s' : State)
    (hm : Parse p s = some (none, s')) :
    s' = s ∧
    (s.block.PeekLine.length ≤ 4 ∨ s.block.PeekLine.get? 1 ≠ some openDelimiter ∨
      (∀ j, 2 ≤ j → ¬ closesAt s.block.PeekLine j) ∨ FirstClose s.block.PeekLine 2) := by
  have h := Parse_case p s
  generalize hres : Parse p s = res at h hm
  cases h with
  | short h1 =>
    simp only [Option.some.injEq, Prod.mk.injEq, true_and] at hm
    exact ⟨hm.symm, Or.inl h1⟩
  | noOpen _ h1 =>
    simp only [Option.some.injEq, Prod.mk.injEq, true_and] at hm
    exact ⟨hm.symm, Or.inr (Or.inl h1)⟩
  | noClose _ _ h1 =>
    simp only [Option.some.injEq, Prod.mk.injEq, true_and] at hm
    exact ⟨hm.symm, Or.inr (Or.inr (Or.inl h1))⟩
  | empty _ _ h1 =>
    simp only [Option.some.injEq, Prod.mk.injEq, true_and] at hm
    exact ⟨hm.symm, Or.inr (Or.inr (Or.inr h1))⟩
  | whole c _ _ _ _ _ => simp at hm
  | split c q _ _ _ _ _ _ => simp at hm

theorem Parse_total (p : wikiLinkParser) (s : State) :
    (∃ s', Parse p s = some (none, s')) ∨ ∃ wl s', Parse p s = some (some wl, s') := by
  have h := Parse_case p s
  generalize Parse p s = res at h
  cases h with
  | short _ => exact Or.inl ⟨_, rfl⟩
  | noOpen _ _ => exact Or.inl ⟨_, rfl⟩
  | noClose _ _ _ => exact Or.inl ⟨_, rfl⟩
  | empty _ _ _ => exact Or.inl ⟨_, rfl⟩
  | whole c _ _ _ _ _ => exact Or.inr ⟨_, _, rfl⟩
  | split c q _ _ _ _ _ _ => exact Or.inr ⟨_, _, rfl⟩

/-! ## Slices of the line -/

theorem sub_length (line : List Byte) (lo hi : Nat) (h : hi ≤ line.length) :
    (sub line lo hi).length = hi - lo := by
  simp [sub, List.length_take, Nat.min_eq_left h]

theorem sub_ne_nil (line : List Byte) (lo hi : Nat) (h1 : lo < hi) (h2 : hi ≤ line.length) :
    sub line lo hi ≠ [] := by
  intro h
  have := sub_length line lo hi h2
  rw [h] at this
  simp at this
  omega

theorem sub_append (line : List Byte) (a b c : Nat) (hab : a ≤ b) (hbc : b ≤ c) :
    sub line a c = sub line a b ++ sub line b c := by
  unfold sub
  have h1 : line.take b = (line.take c).take b := by
    rw [List.take_take, Nat.min_eq_left hbc]
  rw [h1]
  generalize line.take c = t
  have h2 : List.drop a (List.take b t) = List.take (b - a) (List.drop a t) := by
    rw [List.take_drop]
    congr 2
    omega
  rw [h2]
  have h3 : List.drop b t = List.drop (b - a) (List.drop a t) := by
    rw [List.drop_drop]
    congr 1
    omega
  rw [h3, List.take_append_drop]

theorem sub_single (line : List Byte) (q : Nat) (b : Byte) (h : line.get? q = some b) :
    sub line q (q + 1) = [b] := by
  unfold sub
  rw [List.get?_eq_getElem?] at h
  rw [List.take_succ, h, List.drop_append_eq_append_drop]
  have hq : q ≤ line.length := by
    by_contra hc
    rw [List.getElem?_eq_none (by omega)] at h
    exact absurd h (by simp)
  simp [List.length_take, Nat.min_eq_left hq]

theorem sub_zero (line : List Byte) (n : Nat) : sub line 0 n = line.take n := by
  simp [sub]

/-- The consumed span: two leading bytes, the content, and the two closing markers. -/
theorem take_through_close (line : List Byte) (c : Nat) (h2 : 2 ≤ c) (hcl : closesAt line c) :
    line.take (c + 2) =
      line.take 2 ++ sub line 2 c ++ [closeDelimiter, closeDelimiter] := by
  rw [← sub_zero, ← sub_zero,
    sub_append line 0 c (c + 2) (by omega) (by omega),
    sub_append line 0 2 c (by omega) h2,
    sub_append line c (c + 1) (c + 2) (by omega) (by omega),
    sub_single line c _ hcl.1, sub_single line (c + 1) _ hcl.2]
  simp

/-- The content around a delimiter inside it. -/
theorem sub_around (line : List Byte) (d : Byte) (c q : Nat) (h2 : 2 ≤ q) (hqc : q < c)
    (hq : line.get? q = some d) :
    sub line 2 c = sub line 2 q ++ [d] ++ sub line (q + 1) c := by
  rw [sub_append line 2 q c h2 (by omega), sub_append line q (q + 1) c (by omega) (by omega),
    sub_single line q d hq]
  simp

/-! ## Claims about `Parse` -/

/-- C1. `Parse` returns no match exactly when the line has fewer than 5 bytes, or byte 1 is
not the opening marker, or no index from 2 on starts two consecutive closing markers, or the
least such index is 2 (empty content); in every other case it returns a node. -/
theorem Parse_no_match_iff (p : wikiLinkParser) (s : State) :
    ((∃ s', Parse p s = some (none, s')) ↔ NoMatchCond s.block.PeekLine) ∧
    ((∃ wl s', Parse p s = some (some wl, s')) ↔ ¬ NoMatchCond s.block.PeekLine) := by
  have hno : (∃ s', Parse p s = some (none, s')) → NoMatchCond s.block.PeekLine := by
    rintro ⟨s', hm⟩
    rcases (Parse_nomatch_inv p s s' hm).2 with h | h | h | h
    · exact Or.inl (by omega)
    · exact Or.inr (Or.inl h)
    · refine Or.inr (Or.inr (Or.inl ?_))
      rintro ⟨i, hi, _, hcl⟩
      exact h i hi hcl
    · exact Or.inr (Or.inr (Or.inr ⟨2, h, rfl⟩))
  have hyes : (∃ wl s', Parse p s = some (some wl, s')) → ¬ NoMatchCond s.block.PeekLine := by
    rintro ⟨wl, s', hm⟩ hcond
    obtain ⟨hlong, hb1, c, hfc, hgt, hclen, _⟩ := Parse_match_inv p s s' wl hm
    rcases hcond with h | h | h | ⟨i, hi, h2⟩
    · omega
    · exact h hb1
    · exact h ⟨c, by omega, hclen, hfc.2.1⟩
    · have := FirstClose_unique _ _ _ hfc hi
      omega
  refine ⟨⟨hno, fun hcond => ?_⟩, ⟨hyes, fun hcond => ?_⟩⟩
  · rcases Parse_total p s with h | h
    · exact h
    · exact absurd hcond (hyes h)
  · rcases Parse_total p s with h | h
    · exact absurd (hno h) hcond
    · exact h

/-- C2. When `Parse` matches with close position `c` and the last alias delimiter inside
`line[2:c]` is at an index `q` with `2 < q` and `q + 1 < c`, the node has
`RawDestination = line[2:q]` and `Alias = line[q+1:c]`. -/
theorem Parse_split_at_last_delimiter (p : wikiLinkParser) (s s' : State) (wl : WikiLink)
    (c q : Nat) (hm : Parse p s = some (some wl, s'))
    (hc : FirstClose s.block.PeekLine c)
    (hq : LastDelim s.block.PeekLine p.aliasDelimiter c q) (h1 : 2 < q) (h2 : q + 1 < c) :
    wl.RawDestination = sub s.block.PeekLine 2 q ∧
    wl.Alias = sub s.block.PeekLine (q + 1) c := by
  obtain ⟨_, _, c', hfc, _, _, hcase⟩ := Parse_match_inv p s s' wl hm
  have hcc : c' = c := FirstClose_unique _ _ _ hfc hc
  subst hcc
  rcases hcase with ⟨hsup, _, _⟩ | ⟨q', hld, _, _, hwl, _⟩
  · rcases hsup with hno | ⟨q', hld, hedge⟩
    · exact absurd hq (fun h => NoDelim_not_LastDelim _ _ _ _ hno h)
    · have := LastDelim_unique _ _ _ _ _ hld hq
      omega
  · have hqq : q' = q := LastDelim_unique _ _ _ _ _ hld hq
    subst hqq
    rw [hwl]
    exact ⟨rfl, rfl⟩

/-- Witness for C2: the two split links of the repository's tests. -/
theorem Parse_split_at_last_delimiter_witness :
    (Parse (defaultParser asciiOnly) (atLine (bytes "[[Wiki Link:With Some Alias]]")) =
        some (some ⟨bytes "With Some Alias", bytes "Wiki Link", bytes "wiki-link", true⟩,
          ⟨⟨bytes "[[Wiki Link:With Some Alias]]", 29⟩, [bytes "Wiki Link"]⟩) ∧
      bytes "Wiki Link" = sub (bytes "[[Wiki Link:With Some Alias]]") 2 11 ∧
      bytes "With Some Alias" = sub (bytes "[[Wiki Link:With Some Alias]]") 12 27) ∧
    (Parse optionsParser (atLine (bytes "[[Exists|Alias]]")) =
        some (some ⟨bytes "Alias", bytes "Exists", bytes "path", true⟩,
          ⟨⟨bytes "[[Exists|Alias]]", 16⟩, [bytes "Exists"]⟩) ∧
      bytes "Exists" = sub (bytes "[[Exists|Alias]]") 2 8 ∧
      bytes "Alias" = sub (bytes "[[Exists|Alias]]") 9 14) :=
  ⟨⟨by decide,
    Parse_split_at_last_delimiter (defaultParser asciiOnly)
      (atLine (bytes "[[Wiki Link:With Some Alias]]"))
      ⟨⟨bytes "[[Wiki Link:With Some Alias]]", 29⟩, [bytes "Wiki Link"]⟩
      ⟨bytes "With Some Alias", bytes "Wiki Link", bytes "wiki-link", true⟩ 27 11
      (by decide) (by decide) (by decide) (by decide) (by decide)⟩,
   ⟨by decide,
    Parse_split_at_last_delimiter optionsParser (atLine (bytes "[[Exists|Alias]]"))
      ⟨⟨bytes "[[Exists|Alias]]", 16⟩, [bytes "Exists"]⟩
      ⟨bytes "Alias", bytes "Exists", bytes "path", true⟩ 14 8
      (by decide) (by decide) (by decide) (by decide) (by decide)⟩⟩

/-- C3. When `Parse` matches with close position `c` and the content `line[2:c]` holds no
alias delimiter, or its last one is at index 2, or its last one is at index `c - 1`, the
split is suppressed: `RawDestination = Alias = line[2:c]`. -/
theorem Parse_split_suppressed (p : wikiLinkParser) (s s' : State) (wl : WikiLink) (c : Nat)
    (hm : Parse p s = some (some wl, s')) (hc : FirstClose s.block.PeekLine c)
    (hsup : NoDelim s.block.PeekLine p.aliasDelimiter c ∨
      LastDelim s.block.PeekLine p.aliasDelimiter c 2 ∨
      LastDelim s.block.PeekLine p.aliasDelimiter c (c - 1)) :
    wl.RawDestination = sub s.block.PeekLine 2 c ∧ wl.Alias = sub s.block.PeekLine 2 c := by
  obtain ⟨_, _, c', hfc, hgt, _, hcase⟩ := Parse_match_inv p s s' wl hm
  have hcc : c' = c := FirstClose_unique _ _ _ hfc hc
  subst hcc
  rcases hcase with ⟨_, hwl, _⟩ | ⟨q, hld, hq3, hqc, _, _⟩
  · rw [hwl]
    exact ⟨rfl, rfl⟩
  · rcases hsup with hno | h | h
    · exact absurd hld (fun h => NoDelim_not_LastDelim _ _ _ _ hno h)
    · have := LastDelim_unique _ _ _ _ _ hld h
      omega
    · have := LastDelim_unique _ _ _ _ _ hld h
      omega

/-- Witness for C3: a link without delimiter, and the links `[[:]]`, `[[:a]]` and `[[a:]]`
of the repository's test. -/
theorem Parse_split_suppressed_witness :
    (Parse (defaultParser asciiOnly) (atLine (bytes "[[Regular Wiki Link]]")) =
        some (some ⟨bytes "Regular Wiki Link", bytes "Regular Wiki Link",
          bytes "regular-wiki-link", true⟩,
          ⟨⟨bytes "[[Regular Wiki Link]]", 21⟩, [bytes "Regular Wiki Link"]⟩) ∧
      bytes "Regular Wiki Link" = sub (bytes "[[Regular Wiki Link]]") 2 19 ∧
      bytes "Regular Wiki Link" = sub (bytes "[[Regular Wiki Link]]") 2 19) ∧
    (Parse (defaultParser asciiOnly) (atLine (bytes "[[:]]")) =
        some (some ⟨bytes ":", bytes ":", bytes ":", true⟩, ⟨⟨bytes "[[:]]", 5⟩, [bytes ":"]⟩) ∧
      bytes ":" = sub (bytes "[[:]]") 2 3 ∧ bytes ":" = sub (bytes "[[:]]") 2 3) ∧
    (Parse (defaultParser asciiOnly) (atLine (bytes "[[:a]]")) =
        some (some ⟨bytes ":a", bytes ":a", bytes ":a", true⟩,
          ⟨⟨bytes "[[:a]]", 6⟩, [bytes ":a"]⟩) ∧
      bytes ":a" = sub (bytes "[[:a]]") 2 4 ∧ bytes ":a" = sub (bytes "[[:a]]") 2 4) ∧
    (Parse (defaultParser asciiOnly) (atLine (bytes "[[a:]]")) =
        some (some ⟨bytes "a:", bytes "a:", bytes "a:", true⟩,
          ⟨⟨bytes "[[a:]]", 6⟩, [bytes "a:"]⟩) ∧
      bytes "a:" = sub (bytes "[[a:]]") 2 4 ∧ bytes "a:" = sub (bytes "[[a:]]") 2 4) :=
  ⟨⟨by decide,
    Parse_split_suppressed (defaultParser asciiOnly) (atLine (bytes "[[Regular Wiki Link]]"))
      ⟨⟨bytes "[[Regular Wiki Link]]", 21⟩, [bytes "Regular Wiki Link"]⟩
      ⟨bytes "Regular Wiki Link", bytes "Regular Wiki Link", bytes "regular-wiki-link", true⟩
      19 (by decide) (by decide) (Or.inl (by decide))⟩,
   ⟨by decide,
    Parse_split_suppressed (defaultParser asciiOnly) (atLine (bytes "[[:]]"))
      ⟨⟨bytes "[[:]]", 5⟩, [bytes ":"]⟩ ⟨bytes ":", bytes ":", bytes ":", true⟩
      3 (by decide) (by decide) (Or.inr (Or.inl (by decide)))⟩,
   ⟨by decide,
    Parse_split_suppressed (defaultParser asciiOnly) (atLine (bytes "[[:a]]"))
      ⟨⟨bytes "[[:a]]", 6⟩, [bytes ":a"]⟩ ⟨bytes ":a", bytes ":a", bytes ":a", true⟩
      4 (by decide) (by decide) (Or.inr (Or.inl (by decide)))⟩,
   ⟨by decide,
    Parse_split_suppressed (defaultParser asciiOnly) (atLine (bytes "[[a:]]"))
      ⟨⟨bytes "[[a:]]", 6⟩, [bytes "a:"]⟩ ⟨bytes "a:", bytes "a:", bytes "a:", true⟩
      4 (by decide) (by decide) (Or.inr (Or.inr (by decide)))⟩⟩

/-- C4. When `Parse` matches, the node's `(Destination, Exists)` is the resolver's answer
for the node's own `RawDestination`, and the resolver has been invoked exactly once more,
with that raw destination as its argument. -/
theorem Parse_resolves_raw_destination (p : wikiLinkParser) (s s' : State) (wl : WikiLink)
    (hm : Parse p s = some (some wl, s')) :
    (wl.Destination, wl.Exists) = p.resolveDestinationFunc wl.RawDestination ∧
    s'.resolverCalls = s.resolverCalls ++ [wl.RawDestination] := by
  obtain ⟨_, _, c, _, _, _, hcase⟩ := Parse_match_inv p s s' wl hm
  rcases hcase with ⟨_, hwl, hs⟩ | ⟨q, _, _, _, hwl, hs⟩
  · rw [hwl, hs]
    exact ⟨rfl, rfl⟩
  · rw [hwl, hs]
    exact ⟨rfl, rfl⟩

/-- Witness for C4: the split link of `TestWikiLinkWithOptions`, whose resolver tells the raw
destination `Exists` from the alias and from the whole content. -/
theorem Parse_resolves_raw_destination_witness :
    Parse optionsParser (atLine (bytes "[[Exists|Alias]]")) =
        some (some ⟨bytes "Alias", bytes "Exists", bytes "path", true⟩,
          ⟨⟨bytes "[[Exists|Alias]]", 16⟩, [bytes "Exists"]⟩) ∧
      (bytes "path", true) = optionsParser.resolveDestinationFunc (bytes "Exists") ∧
      [bytes "Exists"] = [] ++ [bytes "Exists"] :=
  ⟨by decide,
   Parse_resolves_raw_destination optionsParser (atLine (bytes "[[Exists|Alias]]"))
     ⟨⟨bytes "[[Exists|Alias]]", 16⟩, [bytes "Exists"]⟩
     ⟨bytes "Alias", bytes "Exists", bytes "path", true⟩ (by decide)⟩

/-- C5. When `Parse` matches, the reader is advanced by `n = c + 2` bytes for the close
position `c`, with `5 ≤ n ≤ len(line)`; the consumed prefix `line[0:n]` is `line[0:2]`, then
the content, then two closing markers, where the content is `RawDestination` when the split
was suppressed and `RawDestination`, the alias delimiter, `Alias` when it was split; and the
reader's remainder afterwards is `line[n:]`. -/
theorem Parse_consumes_through_close (p : wikiLinkParser) (s s' : State) (wl : WikiLink)
    (hm : Parse p s = some (some wl, s')) :
    ∃ c, FirstClose s.block.PeekLine c ∧
      s'.block.source = s.block.source ∧ s'.block.pos = s.block.pos + (c + 2) ∧
      5 ≤ c + 2 ∧ c + 2 ≤ s.block.PeekLine.length ∧
      ((Suppressed s.block.PeekLine p.aliasDelimiter c ∧ wl.Alias = wl.RawDestination ∧
          s.block.PeekLine.take (c + 2) =
            s.block.PeekLine.take 2 ++ wl.RawDestination ++
              [closeDelimiter, closeDelimiter]) ∨
       ((∃ q, LastDelim s.block.PeekLine p.aliasDelimiter c q ∧ 2 < q ∧ q + 1 < c) ∧
          s.block.PeekLine.take (c + 2) =
            s.block.PeekLine.take 2 ++
              (wl.RawDestination ++ [p.aliasDelimiter] ++ wl.Alias) ++
              [closeDelimiter, closeDelimiter])) ∧
      s'.block.PeekLine = s.block.PeekLine.drop (c + 2) := by
  obtain ⟨_, _, c, hfc, hgt, hclen, hcase⟩ := Parse_match_inv p s s' wl hm
  have htake := take_through_close s.block.PeekLine c hfc.1 hfc.2.1
  have hpeek : ∀ raw, (matched s raw c).block.PeekLine = s.block.PeekLine.drop (c + 2) := by
    intro raw
    simp only [matched, Reader.PeekLine, List.drop_drop]
  rcases hcase with ⟨hsup, hwl, hs⟩ | ⟨q, hld, hq3, hqc, hwl, hs⟩
  · refine ⟨c, hfc, by rw [hs]; rfl, by rw [hs]; rfl, by omega, by omega, Or.inl ⟨hsup, ?_, ?_⟩,
      by rw [hs]; exact hpeek _⟩
    · rw [hwl]; rfl
    · rw [hwl]; exact htake
  · refine ⟨c, hfc, by rw [hs]; rfl, by rw [hs]; rfl, by omega, by omega,
      Or.inr ⟨⟨q, hld, hq3, hqc⟩, ?_⟩, by rw [hs]; exact hpeek _⟩
    rw [hwl, htake, sub_around s.block.PeekLine p.aliasDelimiter c q hld.1 hld.2.1 hld.2.2.1]
    rfl

/-- Witness for C5: after `[[a:b]]` at the start of `[[a:b]] [[c]]`, seven bytes are
consumed. -/
theorem Parse_consumes_through_close_witness :
    Parse (defaultParser asciiOnly) (atLine (bytes "[[a:b]] [[c]]")) =
      some (some ⟨bytes "b", bytes "a", bytes "a", true⟩,
        ⟨⟨bytes "[[a:b]] [[c]]", 7⟩, [bytes "a"]⟩) ∧
    ∃ c, FirstClose (bytes "[[a:b]] [[c]]") c ∧
      bytes "[[a:b]] [[c]]" = bytes "[[a:b]] [[c]]" ∧ 7 = 0 + (c + 2) ∧
      5 ≤ c + 2 ∧ c + 2 ≤ (bytes "[[a:b]] [[c]]").length ∧
      ((Suppressed (bytes "[[a:b]] [[c]]") 58 c ∧ bytes "b" = bytes "a" ∧
          (bytes "[[a:b]] [[c]]").take (c + 2) =
            (bytes "[[a:b]] [[c]]").take 2 ++ bytes "a" ++
              [closeDelimiter, closeDelimiter]) ∨
       ((∃ q, LastDelim (bytes "[[a:b]] [[c]]") 58 c q ∧ 2 < q ∧ q + 1 < c) ∧
          (bytes "[[a:b]] [[c]]").take (c + 2) =
            (bytes "[[a:b]] [[c]]").take 2 ++ (bytes "a" ++ [58] ++ bytes "b") ++
              [closeDelimiter, closeDelimiter])) ∧
      (bytes "[[a:b]] [[c]]").drop 7 = (bytes "[[a:b]] [[c]]").drop (c + 2) :=
  ⟨by decide,
   Parse_consumes_through_close (defaultParser asciiOnly) (atLine (bytes "[[a:b]] [[c]]"))
     ⟨⟨bytes "[[a:b]] [[c]]", 7⟩, [bytes "a"]⟩ ⟨bytes "b", bytes "a", bytes "a", true⟩
     (by decide)⟩

/-- C6. On every line that begins with the four bytes `[[]]`, whether or not further bytes
follow, `Parse` returns no match and changes nothing. -/
theorem Parse_empty_link (p : wikiLinkParser) (s : State)
    (h : [openDelimiter, openDelimiter, closeDelimiter, closeDelimiter] <+: s.block.PeekLine) :
    Parse p s = some (none, s) := by
  obtain ⟨t, ht⟩ := h
  have hcl : closesAt s.block.PeekLine 2 := by
    rw [← ht]; exact ⟨rfl, rfl⟩
  rcases Parse_total p s with ⟨s', hm⟩ | ⟨wl, s', hm⟩
  · rw [hm, (Parse_nomatch_inv p s s' hm).1]
  · obtain ⟨_, _, c, hfc, hgt, _, _⟩ := Parse_match_inv p s s' wl hm
    exact absurd hcl (hfc.2.2 2 hgt (le_refl 2))

/-- Witness for C6: the bare `[[]]`, and `[[]]` followed by further bytes. -/
theorem Parse_empty_link_witness :
    Parse (defaultParser asciiOnly) (atLine (bytes "[[]]")) = some (none, atLine (bytes "[[]]")) ∧
    Parse (defaultParser asciiOnly) (atLine (bytes "[[]] [[:]]")) =
      some (none, atLine (bytes "[[]] [[:]]")) :=
  ⟨Parse_empty_link (defaultParser asciiOnly) (atLine (bytes "[[]]")) (by decide),
   Parse_empty_link (defaultParser asciiOnly) (atLine (bytes "[[]] [[:]]")) (by decide)⟩

/-- C7. Whenever `Parse` returns a node, its `RawDestination` is non-empty and its `Alias`
is non-empty, in the split case as well as in the suppressed case. -/
theorem Parse_node_fields_nonempty (p : wikiLinkParser) (s s' : State) (wl : WikiLink)
    (hm : Parse p s = some (some wl, s')) :
    wl.RawDestination ≠ [] ∧ wl.Alias ≠ [] := by
  obtain ⟨_, _, c, _, hgt, hclen, hcase⟩ := Parse_match_inv p s s' wl hm
  rcases hcase with ⟨_, hwl, _⟩ | ⟨q, _, hq3, hqc, hwl, _⟩
  · rw [hwl]
    exact ⟨sub_ne_nil _ 2 c hgt (by omega), sub_ne_nil _ 2 c hgt (by omega)⟩
  · rw [hwl]
    exact ⟨sub_ne_nil _ 2 q hq3 (by omega), sub_ne_nil _ (q + 1) c hqc (by omega)⟩

/-- Witness for C7: the shortest split link, `[[a:b]]`. -/
theorem Parse_node_fields_nonempty_witness :
    Parse (defaultParser asciiOnly) (atLine (bytes "[[a:b]]")) =
      some (some ⟨bytes "b", bytes "a", bytes "a", true⟩, ⟨⟨bytes "[[a:b]]", 7⟩, [bytes "a"]⟩) ∧
    bytes "a" ≠ [] ∧ bytes "b" ≠ [] :=
  ⟨by decide,
   Parse_node_fields_nonempty (defaultParser asciiOnly) (atLine (bytes "[[a:b]]"))
     ⟨⟨bytes "[[a:b]]", 7⟩, [bytes "a"]⟩ ⟨bytes "b", bytes "a", bytes "a", true⟩ (by decide)⟩

/-- Counterexample to C8 as stated: on the line `x[ab]]` the method `Parse`, which never reads
byte 0, returns a node although byte 0 is not the opening marker. -/
theorem Parse_ignores_first_byte :
    ¬ ∀ (p : wikiLinkParser) (s s' : State) (wl : WikiLink),
      Parse p s = some (some wl, s') →
      s.block.PeekLine.get? 0 = some openDelimiter ∧
      s.block.PeekLine.get? 1 = some openDelimiter ∧
      ∃ c, 2 < c ∧ closesAt s.block.PeekLine c ∧ sub s.block.PeekLine 2 c ≠ [] := by
  intro h
  have h0 := (h (defaultParser asciiOnly) (atLine (bytes "x[ab]]"))
    ⟨⟨bytes "x[ab]]", 6⟩, [bytes "ab"]⟩ ⟨bytes "ab", bytes "ab", bytes "ab", true⟩
    (by decide)).1
  exact absurd h0 (by decide)

/-- C8, amended. Whenever `Parse` returns a node on a line whose first byte is one of the
bytes of `Trigger`, bytes 0 and 1 of the line are both the opening marker, there is an index
`c > 2` at which two consecutive closing markers start, and the content `line[2:c]` is
non-empty. -/
theorem Parse_node_well_formed (p : wikiLinkParser) (s s' : State) (wl : WikiLink)
    (htrigger : ∃ t ∈ Trigger p, s.block.PeekLine.get? 0 = some t)
    (hm : Parse p s = some (some wl, s')) :
    s.block.PeekLine.get? 0 = some openDelimiter ∧
    s.block.PeekLine.get? 1 = some openDelimiter ∧
    ∃ c, 2 < c ∧ closesAt s.block.PeekLine c ∧ sub s.block.PeekLine 2 c ≠ [] := by
  obtain ⟨_, hb1, c, hfc, hgt, hclen, _⟩ := Parse_match_inv p s s' wl hm
  refine ⟨?_, hb1, c, hgt, hfc.2.1, sub_ne_nil _ 2 c hgt (by omega)⟩
  obtain ⟨t, ht, h0⟩ := htrigger
  simp only [Trigger, List.mem_singleton] at ht
  rw [h0, ht]

/-- Witness for C8, amended: the line `[[ab]]`. -/
theorem Parse_node_well_formed_witness :
    Parse (defaultParser asciiOnly) (atLine (bytes "[[ab]]")) =
      some (some ⟨bytes "ab", bytes "ab", bytes "ab", true⟩,
        ⟨⟨bytes "[[ab]]", 6⟩, [bytes "ab"]⟩) ∧
    (bytes "[[ab]]").get? 0 = some openDelimiter ∧
    (bytes "[[ab]]").get? 1 = some openDelimiter ∧
    ∃ c, 2 < c ∧ closesAt (bytes "[[ab]]") c ∧ sub (bytes "[[ab]]") 2 c ≠ [] :=
  ⟨by decide,
   Parse_node_well_formed (defaultParser asciiOnly) (atLine (bytes "[[ab]]"))
    ⟨⟨bytes "[[ab]]", 6⟩, [bytes "ab"]⟩ ⟨bytes "ab", bytes "ab", bytes "ab", true⟩
    ⟨openDelimiter, by decide, by decide⟩ (by decide)⟩

/-- C9. When `Parse` returns no match, the state after the call is the state before it: the
reader is not advanced and the resolver is not invoked. This is the case in particular on
every line whose second byte is not the opening marker. -/
theorem Parse_no_match_frame (p : wikiLinkParser) (s : State) :
    (∀ s', Parse p s = some (none, s') → s' = s) ∧
    (s.block.PeekLine.get? 1 ≠ some openDelimiter → Parse p s = some (none, s)) := by
  refine ⟨fun s' hm => (Parse_nomatch_inv p s s' hm).1, fun h1 => ?_⟩
  rcases Parse_total p s with ⟨s', hm⟩ | ⟨wl, s', hm⟩
  · rw [hm, (Parse_nomatch_inv p s s' hm).1]
  · exact absurd (Parse_match_inv p s s' wl hm).2.1 h1

/-- Witness for C9: the unterminated `[[foo`, and a line whose second byte is a letter. -/
theorem Parse_no_match_frame_witness :
    (Parse (defaultParser asciiOnly) (atLine (bytes "[[foo")) =
        some (none, atLine (bytes "[[foo")) ∧ atLine (bytes "[[foo") = atLine (bytes "[[foo")) ∧
    Parse (defaultParser asciiOnly) (atLine (bytes "[a]] b")) =
      some (none, atLine (bytes "[a]] b")) :=
  ⟨⟨by decide,
    (Parse_no_match_frame (defaultParser asciiOnly) (atLine (bytes "[[foo"))).1 _ (by decide)⟩,
   (Parse_no_match_frame (defaultParser asciiOnly) (atLine (bytes "[a]] b"))).2 (by decide)⟩

/-! ## The default resolver -/

set_option maxRecDepth 1000000 in
theorem plainByte_facts : ∀ c : Byte, plainByte c = true →
    ¬ RuneSelf ≤ c ∧ (asciiSpace c = true ↔ c = 32) ∧
    shouldEscape (if asciiToLower c = 32 then 45 else asciiToLower c) = false ∧
    (if asciiToLower c = 32 then 45 else asciiToLower c) ≠ (37 : Byte) := by
  decide

theorem trimSpaceStop_plain (u : UnicodeOps) (l : List Byte)
    (h : ∀ c ∈ l, plainByte c = true) :
    trimSpaceStop u l = (l.dropWhile (fun c => decide (c = 32))).reverse := by
  induction l with
  | nil => rfl
  | cons c rest ih =>
    obtain ⟨h1, h2, _⟩ := plainByte_facts c (h c (List.mem_cons_self c rest))
    have hrest : ∀ x ∈ rest, plainByte x = true := fun x hx => h x (List.mem_cons_of_mem c hx)
    by_cases hc : c = 32
    · have hsp : asciiSpace c = true := h2.2 hc
      subst hc
      simp only [trimSpaceStop, h1, if_false, hsp, if_true, List.dropWhile_cons, decide_True]
      exact ih hrest
    · have hsp : ¬ asciiSpace c = true := fun hs => hc (h2.1 hs)
      simp only [trimSpaceStop, h1, if_false, hsp, List.dropWhile_cons, hc, decide_False,
        Bool.false_eq_true]

theorem trimSpaceStart_plain (u : UnicodeOps) (l : List Byte)
    (h : ∀ c ∈ l, plainByte c = true) :
    trimSpaceStart u l =
      trimSpaceStop u (l.dropWhile (fun c => decide (c = 32))).reverse := by
  induction l with
  | nil => rfl
  | cons c rest ih =>
    obtain ⟨h1, h2, _⟩ := plainByte_facts c (h c (List.mem_cons_self c rest))
    have hrest : ∀ x ∈ rest, plainByte x = true := fun x hx => h x (List.mem_cons_of_mem c hx)
    by_cases hc : c = 32
    · have hsp : asciiSpace c = true := h2.2 hc
      subst hc
      simp only [trimSpaceStart, h1, if_false, hsp, if_true, List.dropWhile_cons, decide_True]
      exact ih hrest
    · have hsp : ¬ asciiSpace c = true := fun hs => hc (h2.1 hs)
      simp only [trimSpaceStart, h1, if_false, hsp, List.dropWhile_cons, hc, decide_False,
        Bool.false_eq_true]

theorem PathEscape_of_unescaped (l : List Byte) (h : ∀ c ∈ l, shouldEscape c = false) :
    PathEscape l = l := by
  induction l with
  | nil => rfl
  | cons c rest ih =>
    have hc := h c (List.mem_cons_self c rest)
    have hrest : ∀ x ∈ rest, shouldEscape x = false := fun x hx => h x (List.mem_cons_of_mem c hx)
    have ih' := ih hrest
    unfold PathEscape at ih' ⊢
    simp only [List.flatMap_cons, hc, Bool.false_eq_true, if_false, List.singleton_append, ih']

/-- On input of plain bytes the default resolver computes the slug of the specification. -/
theorem defaultResolve_plain (u : UnicodeOps) (raw : List Byte)
    (h : ∀ c ∈ raw, plainByte c = true) :
    (defaultResolveDestinationFunc u raw).1 = slugSpec raw ∧
    ∀ c ∈ (((raw.dropWhile (fun c => decide (c = 32))).reverse.dropWhile
      (fun c => decide (c = 32))).reverse), plainByte c = true := by
  have hdrop : ∀ c ∈ (raw.dropWhile (fun c => decide (c = 32))).reverse, plainByte c = true :=
    fun c hc => h c ((List.dropWhile_sublist _).subset (List.mem_reverse.mp hc))
  have htrim : TrimSpace u raw = ((raw.dropWhile (fun c => decide (c = 32))).reverse.dropWhile
      (fun c => decide (c = 32))).reverse := by
    unfold TrimSpace
    rw [trimSpaceStart_plain u raw h, trimSpaceStop_plain u _ hdrop]
  have hplain : ∀ c ∈ (((raw.dropWhile (fun c => decide (c = 32))).reverse.dropWhile
      (fun c => decide (c = 32))).reverse), plainByte c = true :=
    fun c hc => hdrop c ((List.dropWhile_sublist _).subset (List.mem_reverse.mp hc))
  refine ⟨?_, hplain⟩
  generalize hgen : ((raw.dropWhile (fun c => decide (c = 32))).reverse.dropWhile
      (fun c => decide (c = 32))).reverse = trimmed at htrim hplain
  have hascii : trimmed.all (fun c => decide (c < RuneSelf)) = true := by
    rw [List.all_eq_true]
    intro c hc
    have := (plainByte_facts c (hplain c hc)).1
    simpa using this
  have hslug : slugSpec raw = (trimmed.map asciiToLower).map fun c => if c = 32 then 45 else c := by
    unfold slugSpec
    simp only [hgen]
    rfl
  have hrun : (defaultResolveDestinationFunc u raw).1 =
      PathEscape ((trimmed.map asciiToLower).map fun c => if c = 32 then 45 else c) := by
    simp only [defaultResolveDestinationFunc, htrim, ToLower, hascii, if_true, ReplaceAll]
  rw [hrun, hslug]
  apply PathEscape_of_unescaped
  intro c hc
  simp only [List.mem_map, exists_exists_and_eq_and] at hc
  obtain ⟨b, hb, rfl⟩ := hc
  exact (plainByte_facts b (hplain b hb)).2.2.1

/-- C10. On a raw destination made up only of ASCII letters, ASCII digits, spaces and the
bytes `- _ . ~ $ & + = : @`, `defaultResolveDestinationFunc` returns the input with leading
and trailing spaces removed, every letter lowercased and every remaining space replaced with
`-`, reports that the destination exists, and introduces no percent-escape. -/
theorem defaultResolve_slug (u : UnicodeOps) (rawDest : List Byte)
    (h : ∀ c ∈ rawDest, plainByte c = true) :
    defaultResolveDestinationFunc u rawDest = (slugSpec rawDest, true) ∧
    (37 : Byte) ∉ (defaultResolveDestinationFunc u rawDest).1 := by
  obtain ⟨hslug, hplain⟩ := defaultResolve_plain u rawDest h
  refine ⟨Prod.ext hslug rfl, ?_⟩
  rw [hslug]
  intro hmem
  simp only [slugSpec, List.mem_map, exists_exists_and_eq_and] at hmem
  obtain ⟨b, hb, hb37⟩ := hmem
  exact (plainByte_facts b (hplain b hb)).2.2.2 hb37

set_option maxRecDepth 100000 in
/-- Witness for C10: the destinations of the repository's test, and one with surrounding
spaces and punctuation. -/
theorem defaultResolve_slug_witness :
    defaultResolveDestinationFunc asciiOnly (bytes "Wiki Link") = (bytes "wiki-link", true) ∧
    defaultResolveDestinationFunc asciiOnly (bytes "Regular Wiki Link") =
      (bytes "regular-wiki-link", true) ∧
    defaultResolveDestinationFunc asciiOnly (bytes ":a") = (bytes ":a", true) ∧
    defaultResolveDestinationFunc asciiOnly (bytes "  A b_C.9~$&+=:@  ") =
      (bytes "a-b_c.9~$&+=:@", true) :=
  ⟨(defaultResolve_slug asciiOnly (bytes "Wiki Link") (by decide)).1.trans (by decide),
   (defaultResolve_slug asciiOnly (bytes "Regular Wiki Link") (by decide)).1.trans (by decide),
   (defaultResolve_slug asciiOnly (bytes ":a") (by decide)).1.trans (by decide),
   (defaultResolve_slug asciiOnly (bytes "  A b_C.9~$&+=:@  ") (by decide)).1.trans (by decide)⟩

/-- C11. For every raw destination, the empty one and those of whitespace only included,
`defaultResolveDestinationFunc` reports `exists = true`. -/
theorem defaultResolve_exists (u : UnicodeOps) (rawDest : List Byte) :
    (defaultResolveDestinationFunc u rawDest).2 = true := by
  unfold defaultResolveDestinationFunc
  rfl

/-! ## The default renderer and the options -/

/-- C12. For every node, `defaultRenderFunc` returns exactly `<a href="`, the destination,
`">`, the alias and `</a>`; the result is the same whatever `Exists` and `RawDestination`
are. -/
theorem defaultRender_markup (wl : WikiLink) :
    defaultRenderFunc wl =
      some (bytes "<a href=\"" ++ wl.Destination ++ bytes "\">" ++ wl.Alias ++ bytes "</a>") ∧
    ∀ (raw : List Byte) (ex : Bool),
      defaultRenderFunc { wl with RawDestination := raw, Exists := ex } = defaultRenderFunc wl := by
  refine ⟨?_, fun raw ex => rfl⟩
  have h : defaultRenderFunc wl =
      some (bytes "<a href=\"" ++ (wl.Destination ++ (bytes "\">" ++ (wl.Alias ++ bytes "</a>")))) := by
    rfl
  rw [h]
  simp only [List.append_assoc]

/-- C13. `New` applied to no options is the default configuration, with delimiter `:`, the
default resolver and the default renderer; `New` applies its options from left to right to
the default configuration; and each of `WithAliasDelimiter`, `WithResolveDestinationFunc`
and `WithRenderFunc` sets its own field and leaves the other two as they were, so that the
last option of a kind decides its field. -/
theorem New_applies_options (u : UnicodeOps) :
    New u [] = ⟨defaultAliasDelimiter, defaultResolveDestinationFunc u, defaultRenderFunc⟩ ∧
    defaultAliasDelimiter = 58 ∧
    (∀ (opts : List ExtOption) (opt : ExtOption), New u (opts ++ [opt]) = opt (New u opts)) ∧
    (∀ (ext : wikiLinkExtension) (d : Byte),
      WithAliasDelimiter d ext = ⟨d, ext.resolveDestinationFunc, ext.renderFunc⟩) ∧
    (∀ (ext : wikiLinkExtension) (r : ResolveDestinationFunc),
      WithResolveDestinationFunc r ext = ⟨ext.aliasDelimiter, r, ext.renderFunc⟩) ∧
    (∀ (ext : wikiLinkExtension) (f : RenderFunc),
      WithRenderFunc f ext = ⟨ext.aliasDelimiter, ext.resolveDestinationFunc, f⟩) ∧
    (∀ (opts : List ExtOption) (d1 d2 : Byte),
      New u (opts ++ [WithAliasDelimiter d1, WithAliasDelimiter d2]) =
        New u (opts ++ [WithAliasDelimiter d2])) := by
  refine ⟨rfl, rfl, ?_, fun _ _ => rfl, fun _ _ => rfl, fun _ _ => rfl, ?_⟩
  swap
  · intro opts d1 d2
    simp only [New, List.foldl_append, List.foldl_cons, List.foldl_nil]
    rfl
  intro opts opt
  simp only [New, List.foldl_append, List.foldl_cons, List.foldl_nil]

/-! ## Bytes of a slice -/

theorem sub_get? (line : List Byte) (lo hi i : Nat) (h : lo + i < hi) :
    (sub line lo hi).get? i = line.get? (lo + i) := by
  have hlt : lo + i < hi := h
  simp [sub, List.getElem?_drop, List.getElem?_take, hlt]

theorem sub_get?_none (line : List Byte) (lo hi i : Nat) (h : hi ≤ lo + i) :
    (sub line lo hi).get? i = none := by
  have hlt : ¬ lo + i < hi := by omega
  simp [sub, List.getElem?_drop, List.getElem?_take, hlt]

/-- A pair of closing markers inside a slice is one in the line, before the slice's end. -/
theorem closesAt_of_sub (line : List Byte) (lo hi i : Nat) (h : closesAt (sub line lo hi) i) :
    closesAt line (lo + i) ∧ lo + i + 1 < hi := by
  rcases h with ⟨h1, h2⟩
  have hlt : lo + (i + 1) < hi := by
    by_contra hc
    rw [sub_get?_none line lo hi (i + 1) (by omega)] at h2
    exact absurd h2 (by simp)
  rw [sub_get? line lo hi i (by omega)] at h1
  rw [sub_get? line lo hi (i + 1) hlt] at h2
  exact ⟨⟨h1, h2⟩, by omega⟩

theorem mem_sub (line : List Byte) (lo hi : Nat) (b : Byte) (h : b ∈ sub line lo hi) :
    ∃ j, lo ≤ j ∧ j < hi ∧ line.get? j = some b := by
  obtain ⟨i, hi'⟩ := List.mem_iff_get?.mp h
  have hlt : lo + i < hi := by
    by_contra hc
    rw [sub_get?_none line lo hi i (by omega)] at hi'
    exact absurd hi' (by simp)
  rw [sub_get? line lo hi i hlt] at hi'
  exact ⟨lo + i, by omega, hlt, hi'⟩

theorem sub_getLast? (line : List Byte) (lo hi : Nat) (h1 : lo < hi) (h2 : hi ≤ line.length) :
    (sub line lo hi).getLast? = line.get? (hi - 1) := by
  rw [List.getLast?_eq_getElem?, ← List.get?_eq_getElem?, sub_length line lo hi h2,
    sub_get? line lo hi (hi - lo - 1) (by omega)]
  congr 1
  omega

/-- Below the first close position no pair of closing markers starts inside a slice, and the
byte before the close position is not a closing marker. -/
theorem sub_no_close (line : List Byte) (c lo hi : Nat) (hfc : FirstClose line c)
    (hlo : 2 ≤ lo) (hhi : hi ≤ c) : ∀ i, ¬ closesAt (sub line lo hi) i := by
  intro i h
  obtain ⟨hcl, hlt⟩ := closesAt_of_sub line lo hi i h
  exact hfc.2.2 (lo + i) (by omega) (by omega) hcl

theorem before_close_ne (line : List Byte) (c : Nat) (hfc : FirstClose line c) (hgt : 2 < c) :
    line.get? (c - 1) ≠ some closeDelimiter := by
  intro h
  have hcl : closesAt line (c - 1) := by
    refine ⟨h, ?_⟩
    have : c - 1 + 1 = c := by omega
    rw [this]
    exact hfc.2.1.1
  exact hfc.2.2 (c - 1) (by omega) (by omega) hcl

/-! ## Further claims about `Parse` -/

/-- C16. Last delimiter wins: when `Parse` matches and splits the content, at the last
alias delimiter `q` with `2 < q` and `q + 1 < c`, the alias holds no alias delimiter. The raw
destination may hold earlier ones, as the witness shows. -/
theorem Parse_last_delimiter_wins (p : wikiLinkParser) (s s' : State) (wl : WikiLink)
    (c q : Nat) (hm : Parse p s = some (some wl, s'))
    (hc : FirstClose s.block.PeekLine c)
    (hq : LastDelim s.block.PeekLine p.aliasDelimiter c q) (h1 : 2 < q) (h2 : q + 1 < c) :
    p.aliasDelimiter ∉ wl.Alias := by
  obtain ⟨_, _, c', hfc, _, _, hcase⟩ := Parse_match_inv p s s' wl hm
  have hcc : c' = c := FirstClose_unique _ _ _ hfc hc
  subst hcc
  rcases hcase with ⟨hsup, _, _⟩ | ⟨q', hld, _, _, hwl, _⟩
  · rcases hsup with hno | ⟨q', hld, hedge⟩
    · exact absurd hq (fun h => NoDelim_not_LastDelim _ _ _ _ hno h)
    · have := LastDelim_unique _ _ _ _ _ hld hq
      omega
  · have hqq : q' = q := LastDelim_unique _ _ _ _ _ hld hq
    subst hqq
    rw [hwl]
    intro hmem
    obtain ⟨j, hj1, hj2, hj⟩ := mem_sub _ _ _ _ hmem
    exact hq.2.2.2 j hj2 (by omega) hj

/-- Witness for C16: `[[a:b:c]]` yields the raw destination `a:b` and the alias `c`. -/
theorem Parse_last_delimiter_wins_witness :
    Parse (defaultParser asciiOnly) (atLine (bytes "[[a:b:c]]")) =
      some (some ⟨bytes "c", bytes "a:b", bytes "a:b", true⟩,
        ⟨⟨bytes "[[a:b:c]]", 9⟩, [bytes "a:b"]⟩) ∧
    (58 : Byte) ∈ bytes "a:b" ∧ (58 : Byte) ∉ bytes "c" :=
  ⟨by decide, by decide,
   Parse_last_delimiter_wins (defaultParser asciiOnly) (atLine (bytes "[[a:b:c]]"))
     ⟨⟨bytes "[[a:b:c]]", 9⟩, [bytes "a:b"]⟩ ⟨bytes "c", bytes "a:b", bytes "a:b", true⟩ 7 5
     (by decide) (by decide) (by decide) (by decide) (by decide)⟩

/-- Counterexample to C17 as stated: on the line `[[a]:b]]` with delimiter `:` the content
`a]:b` is split right after a closing marker, and the raw destination `a]` ends with one. -/
theorem Parse_raw_destination_may_end_with_close :
    ¬ ∀ (p : wikiLinkParser) (s s' : State) (wl : WikiLink),
      Parse p s = some (some wl, s') →
      ∃ c, FirstClose s.block.PeekLine c ∧ s'.block.pos = s.block.pos + (c + 2) ∧
        (∀ i, ¬ closesAt (sub s.block.PeekLine 2 c) i) ∧
        (sub s.block.PeekLine 2 c).getLast? ≠ some closeDelimiter ∧
        (∀ i, ¬ closesAt wl.RawDestination i) ∧
        wl.RawDestination.getLast? ≠ some closeDelimiter ∧
        (∀ i, ¬ closesAt wl.Alias i) ∧
        wl.Alias.getLast? ≠ some closeDelimiter := by
  intro h
  obtain ⟨c, _, _, _, _, _, hlast, _⟩ := h (defaultParser asciiOnly) (atLine (bytes "[[a]:b]]"))
    ⟨⟨bytes "[[a]:b]]", 8⟩, [bytes "a]"]⟩ ⟨bytes "b", bytes "a]", bytes "a%5D", true⟩
    (by decide)
  exact hlast (by decide)

/-- C17, amended. First closing pair wins: when `Parse` matches, the close position, two
bytes before the new reader position, is the least index from 2 on at which two consecutive
closing markers start. The content `line[2:c]` holds no two adjacent closing markers and does
not end with one; neither `RawDestination` nor `Alias` holds two adjacent closing markers;
`Alias` does not end with one, and `RawDestination` does not when the split is suppressed. -/
theorem Parse_first_close_wins (p : wikiLinkParser) (s s' : State) (wl : WikiLink)
    (hm : Parse p s = some (some wl, s')) :
    ∃ c, FirstClose s.block.PeekLine c ∧ s'.block.pos = s.block.pos + (c + 2) ∧
      (∀ i, ¬ closesAt (sub s.block.PeekLine 2 c) i) ∧
      (sub s.block.PeekLine 2 c).getLast? ≠ some closeDelimiter ∧
      (∀ i, ¬ closesAt wl.RawDestination i) ∧
      (Suppressed s.block.PeekLine p.aliasDelimiter c →
        wl.RawDestination.getLast? ≠ some closeDelimiter) ∧
      (∀ i, ¬ closesAt wl.Alias i) ∧
      wl.Alias.getLast? ≠ some closeDelimiter := by
  obtain ⟨_, _, c, hfc, hgt, hclen, hcase⟩ := Parse_match_inv p s s' wl hm
  have hcontent : (sub s.block.PeekLine 2 c).getLast? ≠ some closeDelimiter := by
    rw [sub_getLast? _ 2 c hgt (by omega)]
    exact before_close_ne _ c hfc hgt
  rcases hcase with ⟨_, hwl, hs⟩ | ⟨q, hld, hq3, hqc, hwl, hs⟩
  · refine ⟨c, hfc, by rw [hs]; rfl, sub_no_close _ c 2 c hfc (le_refl 2) (le_refl c), hcontent,
      ?_, ?_, ?_, ?_⟩
    · rw [hwl]; exact sub_no_close _ c 2 c hfc (le_refl 2) (le_refl c)
    · intro _; rw [hwl]; exact hcontent
    · rw [hwl]; exact sub_no_close _ c 2 c hfc (le_refl 2) (le_refl c)
    · rw [hwl]; exact hcontent
  · refine ⟨c, hfc, by rw [hs]; rfl, sub_no_close _ c 2 c hfc (le_refl 2) (le_refl c), hcontent,
      ?_, ?_, ?_, ?_⟩
    · rw [hwl]; exact sub_no_close _ c 2 q hfc (le_refl 2) (by omega)
    · rintro (hno | ⟨q', hld', hedge⟩)
      · exact absurd hld (fun h => NoDelim_not_LastDelim _ _ _ _ hno h)
      · have := LastDelim_unique _ _ _ _ _ hld hld'
        omega
    · rw [hwl]; exact sub_no_close _ c (q + 1) c hfc (by omega) (le_refl c)
    · rw [hwl]
      show (sub s.block.PeekLine (q + 1) c).getLast? ≠ some closeDelimiter
      rw [sub_getLast? _ (q + 1) c hqc (by omega)]
      exact before_close_ne _ c hfc hgt

/-- Witness for C17, amended: on `[[a]:b]] ]]` the first of the two closing pairs is taken. -/
theorem Parse_first_close_wins_witness :
    Parse (defaultParser asciiOnly) (atLine (bytes "[[a]:b]] ]]")) =
      some (some ⟨bytes "b", bytes "a]", bytes "a%5D", true⟩,
        ⟨⟨bytes "[[a]:b]] ]]", 8⟩, [bytes "a]"]⟩) ∧
    ∃ c, FirstClose (bytes "[[a]:b]] ]]") c ∧ 8 = 0 + (c + 2) ∧
      (∀ i, ¬ closesAt (sub (bytes "[[a]:b]] ]]") 2 c) i) ∧
      (sub (bytes "[[a]:b]] ]]") 2 c).getLast? ≠ some closeDelimiter ∧
      (∀ i, ¬ closesAt (bytes "a]") i) ∧
      (Suppressed (bytes "[[a]:b]] ]]") 58 c → (bytes "a]").getLast? ≠ some closeDelimiter) ∧
      (∀ i, ¬ closesAt (bytes "b") i) ∧
      (bytes "b").getLast? ≠ some closeDelimiter :=
  ⟨by decide,
   Parse_first_close_wins (defaultParser asciiOnly) (atLine (bytes "[[a]:b]] ]]"))
     ⟨⟨bytes "[[a]:b]] ]]", 8⟩, [bytes "a]"]⟩ ⟨bytes "b", bytes "a]", bytes "a%5D", true⟩
     (by decide)⟩

/-- C19. The scanner's decisions do not depend on the delimiter or on the resolver: for two
parsers on the same state, one matches exactly when the other does, and when both match they
leave the reader at the same position; when neither matches both leave the state as it was. -/
theorem Parse_decision_independent (p1 p2 : wikiLinkParser) (s : State) :
    ((∃ wl s', Parse p1 s = some (some wl, s')) ↔ (∃ wl s', Parse p2 s = some (some wl, s'))) ∧
    (∀ wl1 s1 wl2 s2, Parse p1 s = some (some wl1, s1) → Parse p2 s = some (some wl2, s2) →
      s1.block = s2.block) ∧
    (∀ s1 s2, Parse p1 s = some (none, s1) → Parse p2 s = some (none, s2) → s1 = s2) := by
  have hkey : ∀ p : wikiLinkParser, (∃ wl s', Parse p s = some (some wl, s')) ↔
      (4 < s.block.PeekLine.length ∧ s.block.PeekLine.get? 1 = some openDelimiter ∧
        ∃ c, FirstClose s.block.PeekLine c ∧ 2 < c) := by
    intro p
    constructor
    · rintro ⟨wl, s', hm⟩
      obtain ⟨h1, h2, c, hfc, hgt, _, _⟩ := Parse_match_inv p s s' wl hm
      exact ⟨h1, h2, c, hfc, hgt⟩
    · rintro ⟨h1, h2, c, hfc, hgt⟩
      rcases Parse_total p s with ⟨s', hm⟩ | h
      · rcases (Parse_nomatch_inv p s s' hm).2 with h | h | h | h
        · omega
        · exact absurd h2 h
        · exact absurd hfc.2.1 (h c hfc.1)
        · have := FirstClose_unique _ _ _ hfc h
          omega
      · exact h
  have hblock : ∀ (p : wikiLinkParser) wl s', Parse p s = some (some wl, s') →
      ∃ c, FirstClose s.block.PeekLine c ∧
        s'.block = { source := s.block.source, pos := s.block.pos + (c + 2) } := by
    intro p wl s' hm
    obtain ⟨_, _, c, hfc, _, _, hcase⟩ := Parse_match_inv p s s' wl hm
    rcases hcase with ⟨_, _, hs⟩ | ⟨q, _, _, _, _, hs⟩
    · exact ⟨c, hfc, by rw [hs]; rfl⟩
    · exact ⟨c, hfc, by rw [hs]; rfl⟩
  refine ⟨(hkey p1).trans (hkey p2).symm, ?_, ?_⟩
  · intro wl1 s1 wl2 s2 hm1 hm2
    obtain ⟨c1, hfc1, hb1⟩ := hblock p1 wl1 s1 hm1
    obtain ⟨c2, hfc2, hb2⟩ := hblock p2 wl2 s2 hm2
    have := FirstClose_unique _ _ _ hfc1 hfc2
    subst this
    rw [hb1, hb2]
  · intro s1 s2 hm1 hm2
    rw [(Parse_nomatch_inv p1 s s1 hm1).1, (Parse_nomatch_inv p2 s s2 hm2).1]

/-- Witness for C19: `[[a:b|c]]` under the default parser and under the parser of
`TestWikiLinkWithOptions`; the nodes differ, the reader position does not. -/
theorem Parse_decision_independent_witness :
    Parse (defaultParser asciiOnly) (atLine (bytes "[[a:b|c]]")) =
      some (some ⟨bytes "b|c", bytes "a", bytes "a", true⟩,
        ⟨⟨bytes "[[a:b|c]]", 9⟩, [bytes "a"]⟩) ∧
    Parse optionsParser (atLine (bytes "[[a:b|c]]")) =
      some (some ⟨bytes "c", bytes "a:b", bytes "path", false⟩,
        ⟨⟨bytes "[[a:b|c]]", 9⟩, [bytes "a:b"]⟩) ∧
    (⟨bytes "[[a:b|c]]", 9⟩ : Reader) = ⟨bytes "[[a:b|c]]", 9⟩ :=
  ⟨by decide, by decide,
   (Parse_decision_independent (defaultParser asciiOnly) optionsParser
     (atLine (bytes "[[a:b|c]]"))).2.1
     ⟨bytes "b|c", bytes "a", bytes "a", true⟩ ⟨⟨bytes "[[a:b|c]]", 9⟩, [bytes "a"]⟩
     ⟨bytes "c", bytes "a:b", bytes "path", false⟩ ⟨⟨bytes "[[a:b|c]]", 9⟩, [bytes "a:b"]⟩
     (by decide) (by decide)⟩

/-- C15. `Parse` never indexes or slices outside the line. Indexing and slicing fail exactly
when out of range, and with them `Parse` would fail; but for every state, whatever the length
of the line, `Parse` returns, and the number of bytes it advances the reader by does not
exceed the length of the line. -/
theorem Parse_in_bounds (p : wikiLinkParser) (s : State) :
    (∀ i : Int, index s.block.PeekLine i = none ↔ (i < 0 ∨ (s.block.PeekLine.length : Int) ≤ i)) ∧
    (∀ lo hi : Int, slice s.block.PeekLine lo hi = none ↔
      ¬ (0 ≤ lo ∧ lo ≤ hi ∧ hi ≤ (s.block.PeekLine.length : Int))) ∧
    ∃ node s' n, Parse p s = some (node, s') ∧ s'.block.source = s.block.source ∧
      s'.block.pos = s.block.pos + n ∧ n ≤ s.block.PeekLine.length := by
  refine ⟨?_, ?_, ?_⟩
  · intro i
    unfold index
    by_cases hi : 0 ≤ i
    · simp only [hi, if_true, List.get?_eq_none]
      omega
    · simp only [hi, if_false, true_iff]
      omega
  · intro lo hi
    unfold slice
    by_cases h : 0 ≤ lo ∧ lo ≤ hi ∧ hi ≤ (s.block.PeekLine.length : Int)
    · simp [h]
    · simp [h]
  · rcases Parse_total p s with ⟨s', hm⟩ | ⟨wl, s', hm⟩
    · have hs := (Parse_nomatch_inv p s s' hm).1
      exact ⟨none, s', 0, hm, by rw [hs], by rw [hs]; rfl, Nat.zero_le _⟩
    · obtain ⟨_, _, c, _, _, hclen, hcase⟩ := Parse_match_inv p s s' wl hm
      rcases hcase with ⟨_, _, hs⟩ | ⟨q, _, _, _, _, hs⟩
      · exact ⟨some wl, s', c + 2, hm, by rw [hs]; rfl, by rw [hs]; rfl, by omega⟩
      · exact ⟨some wl, s', c + 2, hm, by rw [hs]; rfl, by rw [hs]; rfl, by omega⟩

/-- The body of `ParseGuardTwo` up to the test after the scan loop, given the loop's result. -/
theorem ParseGuardTwo_nil_after_scan (p : wikiLinkParser) (s : State) (cp ap : Int)
    (hlong : ¬ s.block.PeekLine.length < 2)
    (hidx : index s.block.PeekLine 1 = some openDelimiter)
    (hrun : scanLoop s.block.PeekLine p.aliasDelimiter s.block.PeekLine.length delimiterCount (-1)
      = some (cp, ap))
    (hnil : delimiterCount = cp ∨ cp = -1) :
    ParseGuardTwo p s = some (none, s) := by
  unfold ParseGuardTwo
  simp only [hlong, if_false, hidx, Option.some_bind, ne_eq, not_true_eq_false, hrun]
  rw [if_pos hnil]

/-- C20. The length guard is redundant for the result: on a line of at most 4 bytes the rest
of `Parse`, run behind the guard `len(line) < 2` alone, returns no match as well, so that
`Parse` equals that variant on every state. -/
theorem ParseGuardTwo_eq_Parse (p : wikiLinkParser) (s : State) :
    ParseGuardTwo p s = Parse p s ∧
    (s.block.PeekLine.length ≤ 4 → ParseGuardTwo p s = some (none, s)) := by
  have hshortCase : s.block.PeekLine.length ≤ 4 → ParseGuardTwo p s = some (none, s) := by
    intro hshort
    by_cases h2 : s.block.PeekLine.length < 2
    · unfold ParseGuardTwo
      simp only [h2, if_true]
    obtain ⟨b1, hb1⟩ : ∃ b, s.block.PeekLine.get? 1 = some b :=
      ⟨_, List.get?_eq_get (by omega)⟩
    have hidx : index s.block.PeekLine 1 = some b1 := by
      rw [← hb1]; exact index_natCast s.block.PeekLine 1
    by_cases hopen : b1 = openDelimiter
    swap
    · unfold ParseGuardTwo
      simp only [h2, if_false, hidx, Option.some_bind, ne_eq, hopen, not_false_eq_true, if_true]
    subst hopen
    obtain ⟨cp, ap, hrun, hpost⟩ :=
      scanLoop_spec s.block.PeekLine p.aliasDelimiter s.block.PeekLine.length 2 (-1)
        (by omega) (by omega)
    refine ParseGuardTwo_nil_after_scan p s cp ap h2 hidx hrun ?_
    rcases hpost with ⟨hcp, _⟩ | ⟨c, hcp, hc2, hcl, _, _⟩
    · exact Or.inr hcp
    · have hclen := closesAt_lt s.block.PeekLine c hcl
      have hc : c = 2 := by omega
      subst hc
      exact Or.inl hcp.symm
  refine ⟨?_, hshortCase⟩
  by_cases hshort : s.block.PeekLine.length ≤ 4
  · rw [hshortCase hshort]
    unfold Parse
    simp only [hshort, if_true]
  · have h2 : ¬ s.block.PeekLine.length < 2 := by omega
    unfold ParseGuardTwo Parse
    simp only [h2, hshort, if_false]

/-- Witness for C20: the four-byte lines `[[a]` and `[[]]`, on which the scan loop runs. -/
theorem ParseGuardTwo_eq_Parse_witness :
    ParseGuardTwo (defaultParser asciiOnly) (atLine (bytes "[[a]")) =
      some (none, atLine (bytes "[[a]")) ∧
    ParseGuardTwo (defaultParser asciiOnly) (atLine (bytes "[[]]")) =
      some (none, atLine (bytes "[[]]")) :=
  ⟨(ParseGuardTwo_eq_Parse (defaultParser asciiOnly) (atLine (bytes "[[a]"))).2 (by decide),
   (ParseGuardTwo_eq_Parse (defaultParser asciiOnly) (atLine (bytes "[[]]"))).2 (by decide)⟩

/-! ## Printing a link and parsing it back -/

theorem get?_append_mid (A B C : List Byte) (k : Nat) (hk : k < B.length) :
    (A ++ (B ++ C)).get? (A.length + k) = B.get? k := by
  simp [List.getElem?_append_right, List.getElem?_append_left, hk]

theorem sub_append_mid (A B C : List Byte) :
    sub (A ++ (B ++ C)) A.length (A.length + B.length) = B := by
  unfold sub
  have h1 : List.take (A.length + B.length) (A ++ (B ++ C)) = A ++ B := by
    rw [← List.append_assoc, ← List.length_append, List.take_left]
  rw [h1, List.drop_left]

/-- The positions in a printed link: the line `[[`, `raw`, `d`, `display`, `]]`, `rest` has
its first close position right after `display` and its last delimiter right after `raw`. -/
theorem printed_positions (d : Byte) (raw display rest L : List Byte)
    (hd : d ∉ display)
    (hadj : ∀ i, ¬ closesAt (raw ++ [d] ++ display) i)
    (hend : (raw ++ [d] ++ display).getLast? ≠ some closeDelimiter)
    (hline : L = [openDelimiter, openDelimiter] ++ (raw ++ [d] ++ display) ++
      [closeDelimiter, closeDelimiter] ++ rest) :
    L.get? 1 = some openDelimiter ∧
    FirstClose L (raw.length + display.length + 3) ∧
    LastDelim L d (raw.length + display.length + 3) (raw.length + 2) ∧
    sub L 2 (raw.length + 2) = raw ∧
    sub L (raw.length + 3) (raw.length + display.length + 3) = display := by
  have hn : (raw ++ [d] ++ display).length = raw.length + display.length + 1 := by
    simp; omega
  have hL1 : L = [openDelimiter, openDelimiter] ++
      ((raw ++ [d] ++ display) ++ ([closeDelimiter, closeDelimiter] ++ rest)) := by
    rw [hline]; simp
  have hL2 : L = ([openDelimiter, openDelimiter] ++ (raw ++ [d] ++ display)) ++
      ([closeDelimiter, closeDelimiter] ++ rest) := by
    rw [hline]; simp
  have hL3 : L = [openDelimiter, openDelimiter] ++ (raw ++ ([d] ++ display ++
      [closeDelimiter, closeDelimiter] ++ rest)) := by
    rw [hline]; simp
  have hL4 : L = ([openDelimiter, openDelimiter] ++ raw ++ [d]) ++
      (display ++ ([closeDelimiter, closeDelimiter] ++ rest)) := by
    rw [hline]; simp
  have hC1 : raw ++ [d] ++ display = raw ++ ([d] ++ display) := by simp
  have hC2 : raw ++ [d] ++ display = (raw ++ [d]) ++ (display ++ []) := by simp
  -- bytes of the line inside the content
  have hget : ∀ k, k < raw.length + display.length + 1 →
      L.get? (2 + k) = (raw ++ [d] ++ display).get? k := by
    intro k hk
    have := get?_append_mid [openDelimiter, openDelimiter] (raw ++ [d] ++ display)
      ([closeDelimiter, closeDelimiter] ++ rest) k (by rw [hn]; exact hk)
    rw [← hL1] at this
    exact this
  have hclose0 : L.get? (raw.length + display.length + 3) = some closeDelimiter := by
    have := get?_append_mid ([openDelimiter, openDelimiter] ++ (raw ++ [d] ++ display))
      [closeDelimiter, closeDelimiter] rest 0 (by simp)
    rw [← hL2] at this
    have hlen : ([openDelimiter, openDelimiter] ++ (raw ++ [d] ++ display)).length + 0 =
        raw.length + display.length + 3 := by
      simp; omega
    rw [hlen] at this
    rw [this]; rfl
  have hclose1 : L.get? (raw.length + display.length + 3 + 1) = some closeDelimiter := by
    have := get?_append_mid ([openDelimiter, openDelimiter] ++ (raw ++ [d] ++ display))
      [closeDelimiter, closeDelimiter] rest 1 (by simp)
    rw [← hL2] at this
    have hlen : ([openDelimiter, openDelimiter] ++ (raw ++ [d] ++ display)).length + 1 =
        raw.length + display.length + 3 + 1 := by
      simp; omega
    rw [hlen] at this
    rw [this]; rfl
  have hdelim : (raw ++ [d] ++ display).get? raw.length = some d := by
    have := get?_append_mid raw [d] display 0 (by simp)
    rw [← hC1, Nat.add_zero] at this
    rw [this]; rfl
  have hdisp : ∀ k, k < display.length →
      (raw ++ [d] ++ display).get? (raw.length + 1 + k) = display.get? k := by
    intro k hk
    have := get?_append_mid (raw ++ [d]) display [] k hk
    rw [← hC2] at this
    have hlen : (raw ++ [d]).length = raw.length + 1 := by simp
    rw [hlen] at this
    exact this
  refine ⟨?_, ⟨by omega, ⟨hclose0, hclose1⟩, ?_⟩, ⟨by omega, by omega, ?_, ?_⟩, ?_, ?_⟩
  · rw [hline]; rfl
  · -- no pair of closing markers starts inside the content
    intro j hj h2 hcl
    obtain ⟨k, rfl⟩ : ∃ k, j = 2 + k := ⟨j - 2, by omega⟩
    have hk : k < raw.length + display.length + 1 := by omega
    have hcl1 := hcl.1
    rw [hget k hk] at hcl1
    by_cases hlast : k + 1 < raw.length + display.length + 1
    · have hcl2 := hcl.2
      have hidx : 2 + k + 1 = 2 + (k + 1) := by omega
      rw [hidx, hget (k + 1) hlast] at hcl2
      exact hadj k ⟨hcl1, hcl2⟩
    · apply hend
      rw [List.getLast?_eq_getElem?, ← List.get?_eq_getElem?, hn]
      have hk' : raw.length + display.length + 1 - 1 = k := by omega
      rw [hk']
      exact hcl1
  · have := hget raw.length (by omega)
    rw [hdelim] at this
    have hidx : raw.length + 2 = 2 + raw.length := by omega
    rw [hidx]
    exact this
  · intro j hj hq hjd
    obtain ⟨k, rfl⟩ : ∃ k, j = 2 + (raw.length + 1 + k) := ⟨j - raw.length - 3, by omega⟩
    have hk : k < display.length := by omega
    rw [hget (raw.length + 1 + k) (by omega), hdisp k hk] at hjd
    exact hd (List.mem_iff_get?.mpr ⟨k, hjd⟩)
  · have := sub_append_mid [openDelimiter, openDelimiter] raw
      ([d] ++ display ++ [closeDelimiter, closeDelimiter] ++ rest)
    rw [← hL3] at this
    have hidx : [openDelimiter, openDelimiter].length + raw.length = raw.length + 2 := by
      simp; omega
    rw [hidx] at this
    exact this
  · have := sub_append_mid ([openDelimiter, openDelimiter] ++ raw ++ [d]) display
      ([closeDelimiter, closeDelimiter] ++ rest)
    rw [← hL4] at this
    have hidx1 : ([openDelimiter, openDelimiter] ++ raw ++ [d]).length = raw.length + 3 := by
      simp only [List.length_append, List.length_cons, List.length_nil]; omega
    rw [hidx1] at this
    have hidx2 : raw.length + 3 + display.length = raw.length + display.length + 3 := by omega
    rw [hidx2] at this
    exact this

/-- To find no pair of closing markers in a list it is enough to look below its length. -/
theorem no_close_of_bounded (l : List Byte) (h : ∀ i < l.length, ¬ closesAt l i) :
    ∀ i, ¬ closesAt l i := by
  intro i hcl
  have := closesAt_lt l i hcl
  exact h i (by omega) hcl

/-- C14. Print-then-parse round trip: for non-empty `raw` and `display` such that `display`
holds no alias delimiter and the content `raw`, delimiter, `display` holds no two adjacent
closing markers and does not end with one, `Parse` on the line `[[`, content, `]]`, `rest`
matches with `RawDestination = raw` and `Alias = display` and consumes
`len(raw) + len(display) + 5` bytes. -/
theorem Parse_round_trip (p : wikiLinkParser) (s : State) (raw display rest : List Byte)
    (hraw : raw ≠ []) (hdisplay : display ≠ [])
    (hd : p.aliasDelimiter ∉ display)
    (hadj : ∀ i, ¬ closesAt (raw ++ [p.aliasDelimiter] ++ display) i)
    (hend : (raw ++ [p.aliasDelimiter] ++ display).getLast? ≠ some closeDelimiter)
    (hline : s.block.PeekLine = [openDelimiter, openDelimiter] ++
      (raw ++ [p.aliasDelimiter] ++ display) ++ [closeDelimiter, closeDelimiter] ++ rest) :
    ∃ wl s', Parse p s = some (some wl, s') ∧ wl.RawDestination = raw ∧ wl.Alias = display ∧
      s'.block.source = s.block.source ∧
      s'.block.pos = s.block.pos + (raw.length + display.length + 5) := by
  obtain ⟨hb1, hfc, hld, hsubraw, hsubdisplay⟩ :=
    printed_positions p.aliasDelimiter raw display rest s.block.PeekLine hd hadj hend hline
  have hrawlen : 0 < raw.length := List.length_pos.mpr hraw
  have hdisplaylen : 0 < display.length := List.length_pos.mpr hdisplay
  have hlen : s.block.PeekLine.length = raw.length + display.length + 5 + rest.length := by
    rw [hline]
    simp only [List.length_append, List.length_cons, List.length_nil]
    omega
  rcases Parse_total p s with ⟨s', hm⟩ | ⟨wl, s', hm⟩
  · rcases (Parse_nomatch_inv p s s' hm).2 with h | h | h | h
    · omega
    · exact absurd hb1 h
    · exact absurd hfc.2.1 (h _ hfc.1)
    · have := FirstClose_unique _ _ _ hfc h
      omega
  · obtain ⟨_, _, c, hfc', _, _, hcase⟩ := Parse_match_inv p s s' wl hm
    have hcc : c = raw.length + display.length + 3 := FirstClose_unique _ _ _ hfc' hfc
    subst hcc
    rcases hcase with ⟨hsup, _, _⟩ | ⟨q, hld', _, _, hwl, hs⟩
    · rcases hsup with hno | ⟨q, hld', hedge⟩
      · exact absurd hld (fun h => NoDelim_not_LastDelim _ _ _ _ hno h)
      · have := LastDelim_unique _ _ _ _ _ hld' hld
        omega
    · have hqq : q = raw.length + 2 := LastDelim_unique _ _ _ _ _ hld' hld
      subst hqq
      refine ⟨wl, s', hm, ?_, ?_, by rw [hs]; rfl, by rw [hs]; rfl⟩
      · rw [hwl]; exact hsubraw
      · rw [hwl]; exact hsubdisplay

/-- Witness for C14: the link `[[Exists|Alias]]` of `TestWikiLinkWithOptions`, followed by
the rest of the test's line. -/
theorem Parse_round_trip_witness :
    ∃ wl s', Parse optionsParser (atLine (bytes "[[Exists|Alias]] [[Does not exist]]")) =
        some (some wl, s') ∧
      wl.RawDestination = bytes "Exists" ∧ wl.Alias = bytes "Alias" ∧
      s'.block.source = bytes "[[Exists|Alias]] [[Does not exist]]" ∧
      s'.block.pos = 0 + ((bytes "Exists").length + (bytes "Alias").length + 5) :=
  Parse_round_trip optionsParser (atLine (bytes "[[Exists|Alias]] [[Does not exist]]"))
    (bytes "Exists") (bytes "Alias") (bytes " [[Does not exist]]")
    (by decide) (by decide) (by decide)
    (no_close_of_bounded _ (by decide)) (by decide) (by decide)

/-! ## The resolver's output as a URL path segment -/

set_option maxRecDepth 100000 in
theorem upperhex_hexDigit : ∀ n : Fin 16, hexDigit (upperhex.getD n.val 0) = true := by
  decide

set_option maxRecDepth 1000000 in
theorem unescaped_pathSafe : ∀ c : Byte, shouldEscape c = false → pathSafeByte c = true := by
  decide

set_option maxRecDepth 1000000 in
theorem safe_not_unsafe : ∀ b : Byte,
    (pathSafeByte b = true ∨ hexDigit b = true ∨ b = 37) → b ∉ unsafeBytes := by
  decide

theorem escaped_byte_safe (c : Byte) :
    safeToken (if shouldEscape c then
        [37, upperhex.getD (c.val / 16) 0, upperhex.getD (c.val % 16) 0]
      else [c]) = true ∧
    ∀ b ∈ (if shouldEscape c then
        [37, upperhex.getD (c.val / 16) 0, upperhex.getD (c.val % 16) 0]
      else [c]), b ∉ unsafeBytes := by
  have hhi : hexDigit (upperhex.getD (c.val / 16) 0) = true :=
    upperhex_hexDigit ⟨c.val / 16, by have := c.isLt; omega⟩
  have hlo : hexDigit (upperhex.getD (c.val % 16) 0) = true :=
    upperhex_hexDigit ⟨c.val % 16, by omega⟩
  by_cases hesc : shouldEscape c = true
  · simp only [hesc, if_true]
    refine ⟨by simp only [safeToken, hhi, hlo, decide_True, Bool.and_self], ?_⟩
    intro b hb
    simp only [List.mem_cons, List.mem_singleton, List.not_mem_nil, or_false] at hb
    rcases hb with h | h | h
    · exact safe_not_unsafe b (Or.inr (Or.inr h))
    · rw [h]; exact safe_not_unsafe _ (Or.inr (Or.inl hhi))
    · rw [h]; exact safe_not_unsafe _ (Or.inr (Or.inl hlo))
  · have hesc' : shouldEscape c = false := by simpa using hesc
    simp only [hesc', Bool.false_eq_true, if_false]
    have hsafe := unescaped_pathSafe c hesc'
    refine ⟨by simpa [safeToken] using hsafe, ?_⟩
    intro b hb
    simp only [List.mem_singleton] at hb
    rw [hb]
    exact safe_not_unsafe c (Or.inl hsafe)

/-- C18. For every raw destination, the string returned by `defaultResolveDestinationFunc`
is safe as a URL path segment: it is a sequence of units, each one ASCII letter, one ASCII
digit, one of `- _ . ~ $ & + = : @`, or `%` followed by two hexadecimal digits; and none of
its bytes is a space, `"`, `<`, `>`, `/`, `?` or `#`. -/
theorem defaultResolve_path_safe (u : UnicodeOps) (rawDest : List Byte) :
    (∃ tokens : List (List Byte),
      (defaultResolveDestinationFunc u rawDest).1 = tokens.flatten ∧
      ∀ t ∈ tokens, safeToken t = true) ∧
    ∀ b ∈ (defaultResolveDestinationFunc u rawDest).1, b ∉ unsafeBytes := by
  have hrun : (defaultResolveDestinationFunc u rawDest).1 =
      PathEscape (ReplaceAll (ToLower u (TrimSpace u rawDest)) 32 45) := rfl
  rw [hrun]
  generalize ReplaceAll (ToLower u (TrimSpace u rawDest)) 32 45 = dest
  unfold PathEscape
  refine ⟨⟨dest.map fun c =>
      if shouldEscape c then [37, upperhex.getD (c.val / 16) 0, upperhex.getD (c.val % 16) 0]
      else [c], List.flatMap_def _ _, ?_⟩, ?_⟩
  · intro t ht
    obtain ⟨c, _, rfl⟩ := List.mem_map.mp ht
    exact (escaped_byte_safe c).1
  · intro b hb
    obtain ⟨c, _, hbc⟩ := List.mem_flatMap.mp hb
    exact (escaped_byte_safe c).2 b hbc

end Wikilink
